import Mathlib

set_option maxRecDepth 8000

namespace StringMatch

/-!
Shallow embedding of the repository's two instrumented string-matching
engines: the KMP pipeline (computeLPSWithSteps, kmpSearchWithSteps,
kmpAlgorithm) and the Rabin-Karp pipeline (computeHash,
computePatternHashWithSteps, computeH, rabinKarpSearchWithSteps,
rabinKarpAlgorithm).

Strings are modelled as lists of character codes (`List Nat`): the source
compares characters (`text[i] === pattern[j]`) and reads codes
(`charCodeAt`), and two UTF-16 code units are equal iff their codes are.
JS numbers are modelled as exact integers (`Nat`, and `Int` where the
rolling-hash update can go negative); the spec (§7) puts arithmetic
overflow out of scope.  JS `x % 0 = NaN` has no integer counterpart; all
claims about hashing assume a positive modulus, where the embedding is
exact.

Step records keep every structured field of the source objects.
Presentation-only fields are omitted: `description` / `explanation`
strings, the `removedChar` / `addedChar` character copies of the
`removedCharCode` / `addedCharCode` fields, and the `currentComparison`
record of KMP steps (its three fields duplicate the step's `textIndex`,
`patternIndex` and the step kind).  The source field `compareIndexPrefix`
is named `comparePrefixIndex` here and `match` fields/tags are renamed
(`match` is a Lean keyword).
-/

/-- Indexing helper mirroring in-range JS string/array indexing.
All uses below are provably in range while the loops run. -/
def at0 (l : List Nat) (i : Nat) : Nat := l.getD i 0

/-! ## Step records -/

/-- Steps emitted by `computeLPSWithSteps`. -/
inductive LpsStep where
  | lps_init (lpsArray : List Nat) (currentIndex prefixLength : Nat) (pattern : List Nat)
  | lps_match (lpsArray : List Nat) (currentIndex prefixLength compareIndexPattern
      comparePrefixIndex : Nat) (pattern : List Nat)
  | lps_fallback (lpsArray : List Nat) (currentIndex prefixLength oldPrefixLength : Nat)
      (pattern : List Nat)
  | lps_zero (lpsArray : List Nat) (currentIndex prefixLength : Nat) (pattern : List Nat)
  | lps_complete (lpsArray : List Nat) (pattern : List Nat)
  deriving DecidableEq, Repr

/-- Steps emitted by `kmpSearchWithSteps`.  The source tag `'match'` is
rendered as `char_match`. -/
inductive KmpStep where
  | search_init (textIndex patternIndex patternOffset : Nat) (matchList : List Nat)
      (comparisons : Nat)
  | char_match (textIndex patternIndex patternOffset : Nat) (matchList : List Nat)
      (comparisons : Nat)
  | pattern_found (textIndex patternIndex patternOffset : Nat) (matchList : List Nat)
      (comparisons foundAt : Nat)
  | mismatch_shift (textIndex patternIndex patternOffset : Nat) (matchList : List Nat)
      (comparisons lpsValue shiftAmount : Nat)
  | mismatch_advance (textIndex patternIndex patternOffset : Nat) (matchList : List Nat)
      (comparisons : Nat)
  | search_complete (matchList : List Nat) (comparisons totalMatches : Nat)
  deriving DecidableEq, Repr

/-- Steps emitted by `computePatternHashWithSteps`. -/
inductive HashStep where
  | hash_init (pattern : List Nat) (base mod currentHash : Nat)
  | hash_step (currentIndex charCode oldHash newHash : Nat)
  | hash_complete (finalHash : Nat)
  deriving DecidableEq, Repr

/-- One entry of the character-by-character verification record of a
Rabin-Karp hash match.  The source field `match` is named `matchResult`. -/
structure Verif where
  textIndex : Nat
  patternIndex : Nat
  textChar : Nat
  patternChar : Nat
  matchResult : Bool
  deriving DecidableEq, Repr

/-- Steps emitted by `rabinKarpSearchWithSteps`.  Window hashes are `Int`:
the running `textHash` is a JS number updated by an expression that can be
negative before normalization. -/
inductive RkStep where
  | search_init (patternHash : Nat) (initialTextHash : Int) (hValue windowStart windowEnd : Nat)
  | hash_match (windowStart windowEnd patternHash : Nat) (textHash : Int)
      (hashComparisons charComparisons : Nat)
  | pattern_found (windowStart windowEnd patternHash : Nat) (textHash : Int)
      (matchList : List Nat) (hashComparisons charComparisons : Nat) (verification : List Verif)
  | spurious_hit (windowStart windowEnd patternHash : Nat) (textHash : Int)
      (hashComparisons charComparisons : Nat) (verification : List Verif)
  | hash_mismatch (windowStart windowEnd patternHash : Nat) (textHash : Int)
      (hashComparisons charComparisons : Nat)
  | rolling_hash (oldWindowStart newWindowStart removedCharCode addedCharCode : Nat)
      (oldHash newHash : Int) (hValue : Nat)
  | search_complete (matchList : List Nat) (hashComparisons charComparisons totalMatches : Nat)
  deriving DecidableEq, Repr

/-! ## computeLPSWithSteps -/

/-- Working state of the `while (i < m)` loop of `computeLPSWithSteps`.
The source variable `length` is named `len`. -/
structure LpsState where
  lps : List Nat
  steps : List LpsStep
  len : Nat
  i : Nat
  deriving Repr

/-- One iteration of the body of the `while (i < m)` loop of
`computeLPSWithSteps` (only applied while `s.i < pattern.length`). -/
def lpsBody (p : List Nat) (s : LpsState) : LpsState :=
  if at0 p s.i = at0 p s.len then
    -- pattern[i] === pattern[length]: extend the prefix
    let len := s.len + 1
    let lps := s.lps.set s.i len
    { lps := lps
      steps := s.steps ++ [.lps_match lps s.i len s.i (len - 1) p]
      len := len
      i := s.i + 1 }
  else if s.len ≠ 0 then
    -- fallback: length = lps[length - 1], i unchanged
    let len := at0 s.lps (s.len - 1)
    { s with
      len := len
      steps := s.steps ++ [.lps_fallback s.lps s.i len s.len p] }
  else
    -- length == 0: lps[i] = 0, advance i
    let lps := s.lps.set s.i 0
    { lps := lps
      steps := s.steps ++ [.lps_zero lps s.i 0 p]
      len := 0
      i := s.i + 1 }

/-- The `while (i < m)` loop of `computeLPSWithSteps`, with explicit fuel.
`lps_fuel_sufficient` below proves that the fuel used by
`computeLPSWithSteps` is never exhausted, so the fueled loop computes the
source loop exactly. -/
def lpsLoop (p : List Nat) : Nat → LpsState → LpsState
  | 0, s => s
  | fuel + 1, s => if s.i < p.length then lpsLoop p fuel (lpsBody p s) else s

/-- State of `computeLPSWithSteps` just before its `while` loop. -/
def lpsInit (p : List Nat) : LpsState :=
  let lps := List.replicate p.length 0
  { lps := lps
    steps := [.lps_init lps 0 0 p]
    len := 0
    i := 1 }

structure LpsResult where
  lpsArray : List Nat
  lpsSteps : List LpsStep
  deriving DecidableEq, Repr

/-- Source function `computeLPSWithSteps(pattern)`. -/
def computeLPSWithSteps (p : List Nat) : LpsResult :=
  let s := lpsLoop p (2 * p.length) (lpsInit p)
  { lpsArray := s.lps
    lpsSteps := s.steps ++ [.lps_complete s.lps p] }

/-! ## kmpSearchWithSteps -/

/-- Working state of the `while (i < n)` loop of `kmpSearchWithSteps`. -/
structure KmpState where
  i : Nat
  j : Nat
  comparisons : Nat
  matchList : List Nat
  steps : List KmpStep
  deriving Repr

/-- One iteration of the body of the `while (i < n)` loop of
`kmpSearchWithSteps` (only applied while `s.i < text.length`). -/
def kmpBody (t p lps : List Nat) (s : KmpState) : KmpState :=
  if at0 p s.j = at0 t s.i then
    -- pattern[j] === text[i]
    let comparisons := s.comparisons + 1
    let steps := s.steps ++ [.char_match s.i s.j (s.i - s.j) s.matchList comparisons]
    let i := s.i + 1
    let j := s.j + 1
    if j = p.length then
      -- full pattern match found
      let matchIndex := i - j
      let matchList := s.matchList ++ [matchIndex]
      { i := i
        j := at0 lps (j - 1)
        comparisons := comparisons
        matchList := matchList
        steps := steps ++ [.pattern_found i j matchIndex matchList comparisons matchIndex] }
    else
      { i := i, j := j, comparisons := comparisons, matchList := s.matchList, steps := steps }
  else
    let comparisons := s.comparisons + 1
    if s.j ≠ 0 then
      -- mismatch with j != 0: shift the pattern via the LPS table
      let lpsValue := at0 lps (s.j - 1)
      { s with
        comparisons := comparisons
        j := lpsValue
        steps := s.steps ++
          [.mismatch_shift s.i s.j (s.i - s.j) s.matchList comparisons lpsValue (s.j - lpsValue)] }
    else
      -- mismatch at pattern start: advance i
      { s with
        comparisons := comparisons
        i := s.i + 1
        steps := s.steps ++ [.mismatch_advance s.i s.j (s.i - s.j) s.matchList comparisons] }

/-- The `while (i < n)` loop of `kmpSearchWithSteps`, with explicit fuel.
`kmp_fuel_sufficient` below shows the fuel used by `kmpSearchWithSteps`
is never exhausted for any table produced by `computeLPSWithSteps`. -/
def kmpLoop (t p lps : List Nat) : Nat → KmpState → KmpState
  | 0, s => s
  | fuel + 1, s => if s.i < t.length then kmpLoop t p lps fuel (kmpBody t p lps s) else s

/-- State of `kmpSearchWithSteps` just before its `while` loop. -/
def kmpInit : KmpState :=
  { i := 0, j := 0, comparisons := 0, matchList := [], steps := [.search_init 0 0 0 [] 0] }

structure KmpSearchResult where
  matchList : List Nat
  matchingSteps : List KmpStep
  totalComparisons : Nat
  deriving DecidableEq, Repr

/-- Source function `kmpSearchWithSteps(text, pattern, lps)`. -/
def kmpSearchWithSteps (t p lps : List Nat) : KmpSearchResult :=
  let s := kmpLoop t p lps (2 * t.length + 1) kmpInit
  { matchList := s.matchList
    matchingSteps := s.steps ++ [.search_complete s.matchList s.comparisons s.matchList.length]
    totalComparisons := s.comparisons }

/-! ## kmpAlgorithm -/

/-- The result object assembled by `kmpAlgorithm`. -/
structure KmpResult where
  text : List Nat
  pattern : List Nat
  lpsArray : List Nat
  preprocessingSteps : List LpsStep
  matchingSteps : List KmpStep
  matchList : List Nat
  matchCount : Nat
  totalComparisons : Nat
  timeComplexity : String
  spaceComplexity : String
  deriving DecidableEq, Repr

/-- Source function `kmpAlgorithm(text, pattern)`.  A thrown `Error` is
modelled as `Except.error` of its message.  JS `!text` / `!pattern` on a
string is truth-y exactly on non-empty strings. -/
def kmpAlgorithm (t p : List Nat) : Except String KmpResult :=
  if t.length = 0 ∨ p.length = 0 then
    .error "Both text and pattern are required"
  else if p.length > t.length then
    .error "Pattern length cannot exceed text length"
  else
    let l := computeLPSWithSteps p
    let s := kmpSearchWithSteps t p l.lpsArray
    .ok { text := t
          pattern := p
          lpsArray := l.lpsArray
          preprocessingSteps := l.lpsSteps
          matchingSteps := s.matchingSteps
          matchList := s.matchList
          matchCount := s.matchList.length
          totalComparisons := s.totalComparisons
          timeComplexity := "O(n + m)"
          spaceComplexity := "O(m)" }

/-! ## Rabin-Karp: hashing -/

/-- Source function `computeHash(str, base, mod)`: Horner's scheme,
`hash = (hash * base + str.charCodeAt(i)) % mod` over all characters. -/
def computeHash (str : List Nat) (base mod : Nat) : Nat :=
  str.foldl (fun hash c => (hash * base + c) % mod) 0

structure HashResult where
  hash : Nat
  steps : List HashStep
  deriving DecidableEq, Repr

/-- Source function `computePatternHashWithSteps(pattern, base, mod)`. -/
def computePatternHashWithSteps (p : List Nat) (base mod : Nat) : HashResult :=
  let init : HashResult := { hash := 0, steps := [.hash_init p base mod 0] }
  let r := p.enum.foldl (fun (r : HashResult) (ic : Nat × Nat) =>
    let charCode := ic.2
    let oldHash := r.hash
    let hash := (oldHash * base + charCode) % mod
    { hash := hash, steps := r.steps ++ [.hash_step ic.1 charCode oldHash hash] }) init
  { hash := r.hash, steps := r.steps ++ [.hash_complete r.hash] }

/-- Source function `computeH(patternLength, base, mod)`:
`h = base^(m-1) % mod` by repeated multiplication. -/
def computeH (patternLength base mod : Nat) : Nat :=
  (List.range (patternLength - 1)).foldl (fun h _ => (h * base) % mod) 1

/-! ## rabinKarpSearchWithSteps -/

/-- The verification `for (j...)` loop (with `break` on first mismatch) of
a Rabin-Karp hash match, run over the remaining pattern indices.  Returns
the verification entries in order and whether all characters matched; the
number of character comparisons performed is the length of the list. -/
def verifyList (t p : List Nat) (i : Nat) : List Nat → List Verif × Bool
  | [] => ([], true)
  | j :: rest =>
    let tc := at0 t (i + j)
    let pc := at0 p j
    if tc = pc then
      let r := verifyList t p i rest
      (⟨i + j, j, tc, pc, true⟩ :: r.1, r.2)
    else
      ([⟨i + j, j, tc, pc, false⟩], false)

/-- Working state of the window loop of `rabinKarpSearchWithSteps`. -/
structure RkState where
  textHash : Int
  matchList : List Nat
  steps : List RkStep
  hashComparisons : Nat
  charComparisons : Nat
  deriving Repr

/-- The rolling-hash update expression of the source:
`((base * (textHash - removedCharCode * h) + addedCharCode) % mod + mod) % mod`.
JS `%` truncates toward zero, which is `Int.tmod`. -/
def rollingUpdate (base mod : Nat) (oldHash : Int) (removed added h : Nat) : Int :=
  ((((base : Int) * (oldHash - (removed : Int) * (h : Int)) + (added : Int)).tmod (mod : Int)
    + (mod : Int)).tmod (mod : Int))

/-- Body of the `for (i = 0; i <= n - m; i++)` loop of
`rabinKarpSearchWithSteps`, for window offset `i`. -/
def rkBody (t p : List Nat) (ph base mod h : Nat) (s : RkState) (i : Nat) : RkState :=
  let n := t.length
  let m := p.length
  let hashComparisons := s.hashComparisons + 1
  let s1 :=
    if (ph : Int) = s.textHash then
      let steps := s.steps ++
        [.hash_match i (i + m - 1) ph s.textHash hashComparisons s.charComparisons]
      let v := verifyList t p i (List.range m)
      let charComparisons := s.charComparisons + v.1.length
      if v.2 then
        let matchList := s.matchList ++ [i]
        { s with
          matchList := matchList
          hashComparisons := hashComparisons
          charComparisons := charComparisons
          steps := steps ++ [.pattern_found i (i + m - 1) ph s.textHash matchList
            hashComparisons charComparisons v.1] }
      else
        { s with
          hashComparisons := hashComparisons
          charComparisons := charComparisons
          steps := steps ++ [.spurious_hit i (i + m - 1) ph s.textHash
            hashComparisons charComparisons v.1] }
    else
      { s with
        hashComparisons := hashComparisons
        steps := s.steps ++
          [.hash_mismatch i (i + m - 1) ph s.textHash hashComparisons s.charComparisons] }
  if i < n - m then
    let oldHash := s1.textHash
    let removed := at0 t i
    let added := at0 t (i + m)
    let newHash := rollingUpdate base mod oldHash removed added h
    { s1 with
      textHash := newHash
      steps := s1.steps ++ [.rolling_hash i (i + 1) removed added oldHash newHash h] }
  else s1

structure RkSearchResult where
  matchList : List Nat
  matchingSteps : List RkStep
  hashComparisons : Nat
  charComparisons : Nat
  deriving DecidableEq, Repr

/-- State of `rabinKarpSearchWithSteps` just before its window loop. -/
def rkInit (t p : List Nat) (ph base mod h : Nat) : RkState :=
  let m := p.length
  let textHash : Nat := computeHash (t.take m) base mod
  { textHash := (textHash : Int)
    matchList := []
    steps := [.search_init ph (textHash : Int) h 0 (m - 1)]
    hashComparisons := 0
    charComparisons := 0 }

/-- Source function `rabinKarpSearchWithSteps(text, pattern, patternHash, base, mod)`.
The JS loop `for (i = 0; i <= n - m; i++)` runs over offsets
`0 .. n - m`, i.e. `n + 1 - m` iterations (none when `m > n`). -/
def rabinKarpSearchWithSteps (t p : List Nat) (ph base mod : Nat) : RkSearchResult :=
  let n := t.length
  let m := p.length
  let h := computeH m base mod
  let s := (List.range (n + 1 - m)).foldl (rkBody t p ph base mod h) (rkInit t p ph base mod h)
  { matchList := s.matchList
    matchingSteps := s.steps ++
      [.search_complete s.matchList s.hashComparisons s.charComparisons s.matchList.length]
    hashComparisons := s.hashComparisons
    charComparisons := s.charComparisons }

/-! ## rabinKarpAlgorithm -/

/-- The result object assembled by `rabinKarpAlgorithm`. -/
structure RkResult where
  text : List Nat
  pattern : List Nat
  base : Nat
  modulo : Nat
  patternHash : Nat
  preprocessingSteps : List HashStep
  matchingSteps : List RkStep
  matchList : List Nat
  matchCount : Nat
  hashComparisons : Nat
  charComparisons : Nat
  totalComparisons : Nat
  timeComplexity : String
  spaceComplexity : String
  deriving DecidableEq, Repr

/-- Source function `rabinKarpAlgorithm(text, pattern, base = 256, mod = 101)`.
Note: it validates only text/pattern; `base` and `mod` are passed through
unchecked. -/
def rabinKarpAlgorithm (t p : List Nat) (base : Nat := 256) (mod : Nat := 101) :
    Except String RkResult :=
  if t.length = 0 ∨ p.length = 0 then
    .error "Both text and pattern are required"
  else if p.length > t.length then
    .error "Pattern length cannot exceed text length"
  else
    let hr := computePatternHashWithSteps p base mod
    let s := rabinKarpSearchWithSteps t p hr.hash base mod
    .ok { text := t
          pattern := p
          base := base
          modulo := mod
          patternHash := hr.hash
          preprocessingSteps := hr.steps
          matchingSteps := s.matchingSteps
          matchList := s.matchList
          matchCount := s.matchList.length
          hashComparisons := s.hashComparisons
          charComparisons := s.charComparisons
          totalComparisons := s.hashComparisons + s.charComparisons
          timeComplexity := "O(n + m) average, O(nm) worst case"
          spaceComplexity := "O(1)" }

/-! ## Spec-side definitions (for refinement comparisons) -/

/-- Modelled from the spec: the brute-force scan MatchSet — every
zero-based offset `q` with `text[q .. q+|pattern|-1] = pattern`, in
increasing order. -/
def bruteForceMatches (t p : List Nat) : List Nat :=
  (List.range (t.length - p.length + 1)).filter (fun q => (t.drop q).take p.length = p)

/-- Predicate: `p` occurs in `t` at offset `q` (pointwise form used in proofs). -/
def OccursAt (t p : List Nat) (q : Nat) : Prop :=
  q + p.length ≤ t.length ∧ ∀ d, d < p.length → at0 t (q + d) = at0 p d

instance (t p : List Nat) (q : Nat) : Decidable (OccursAt t p q) := by
  unfold OccursAt at0; exact inferInstance

/-- Predicate: `k` is the length of a proper border of `s`: a proper prefix of `s`
(`k < |s|`) that is also a suffix of `s` (take/drop form, mirroring the
spec's "longest proper prefix which is also a suffix"). -/
def IsBorderTD (s : List Nat) (k : Nat) : Prop :=
  k < s.length ∧ s.take k = s.drop (s.length - k)

instance (s : List Nat) (k : Nat) : Decidable (IsBorderTD s k) := by
  unfold IsBorderTD; exact inferInstance

/-- Index form of `IsBorderTD`: `k` is a proper border length of
`p.take i`.  Used inside the loop-invariant proofs; equivalent to
`IsBorderTD (p.take i) k` when `i ≤ p.length` (`isBorderTD_iff_borderAt`
below). -/
def BorderAt (p : List Nat) (i k : Nat) : Prop :=
  k < i ∧ ∀ d, d < k → at0 p d = at0 p (i - k + d)

instance (p : List Nat) (i k : Nat) : Decidable (BorderAt p i k) := by
  unfold BorderAt at0; exact inferInstance

/-- The length of the longest proper border of `pattern[0..i]`
(`= p.take (i+1)`): the value `computeLPSWithSteps` must put in
`lps[i]`. -/
def lpsSpec (p : List Nat) (i : Nat) : Nat :=
  Nat.findGreatest (BorderAt p (i + 1)) i

/-- The polynomial hash of the spec:
`(Σ_k code(pattern[k]) * base^(m-1-k)) mod modulus`. -/
def polyHash (p : List Nat) (base mod : Nat) : Nat :=
  (∑ k ∈ Finset.range p.length, at0 p k * base ^ (p.length - 1 - k)) % mod

/-- Horner evaluation of a code list without the modulus. -/
def polyVal (base : Nat) (l : List Nat) : Nat :=
  l.foldl (fun h c => h * base + c) 0

/-- The text window of length `m` starting at offset `q`. -/
def rkWindow (t : List Nat) (m q : Nat) : List Nat :=
  (t.drop q).take m

/-- The condition under which the Rabin-Karp loop records offset `q`:
the window hash equals the supplied pattern hash and the window matches
the pattern character by character. -/
def RkHit (t p : List Nat) (ph base mod : Nat) (q : Nat) : Prop :=
  ph = computeHash (rkWindow t p.length q) base mod ∧
    ∀ d, d < p.length → at0 t (q + d) = at0 p d

instance (t p : List Nat) (ph base mod q : Nat) : Decidable (RkHit t p ph base mod q) := by
  unfold RkHit at0; exact inferInstance

/-- A `spurious_hit` step for window offset `q` occurs in `steps`. -/
def HasSpurious (steps : List RkStep) (q : Nat) : Prop :=
  ∃ we ph th hc cc v, RkStep.spurious_hit q we ph th hc cc v ∈ steps

/-- The state of the Rabin-Karp window loop after its first `k`
iterations. -/
def rkRun (t p : List Nat) (ph base mod h k : Nat) : RkState :=
  (List.range k).foldl (rkBody t p ph base mod h) (rkInit t p ph base mod h)

/-- Termination measure of the `computeLPSWithSteps` loop. -/
def lpsMeasure (p : List Nat) (s : LpsState) : Nat :=
  2 * (p.length - s.i) + s.len

/-- Termination measure of the `kmpSearchWithSteps` loop. -/
def kmpMeasure (t : List Nat) (s : KmpState) : Nat :=
  2 * (t.length - s.i) + s.j

/-! ## Indexing lemmas -/

theorem at0_eq_getElem (l : List Nat) (i : Nat) (h : i < l.length) : at0 l i = l[i] :=
  List.getD_eq_getElem l 0 h

theorem at0_default (l : List Nat) (i : Nat) (h : l.length ≤ i) : at0 l i = 0 :=
  List.getD_eq_default l 0 h

theorem at0_replicate (m j : Nat) : at0 (List.replicate m 0) j = 0 := by
  rcases Nat.lt_or_ge j m with h | h
  · rw [at0_eq_getElem _ _ (by simpa using h)]
    simp
  · exact at0_default _ _ (by simpa using h)

theorem at0_set_self (l : List Nat) (i v : Nat) (h : i < l.length) :
    at0 (l.set i v) i = v := by
  rw [at0_eq_getElem _ _ (by simpa using h)]
  simp

theorem at0_set_ne (l : List Nat) (i j v : Nat) (h : i ≠ j) :
    at0 (l.set i v) j = at0 l j := by
  rcases Nat.lt_or_ge j l.length with hj | hj
  · rw [at0_eq_getElem _ _ (by simpa using hj), at0_eq_getElem _ _ hj]
    exact List.getElem_set_ne h _
  · rw [at0_default _ _ (by simpa using hj), at0_default _ _ hj]

theorem at0_take (l : List Nat) (n j : Nat) (h : j < n) : at0 (l.take n) j = at0 l j := by
  rcases Nat.lt_or_ge j l.length with hj | hj
  · rw [at0_eq_getElem (l.take n) _ (by simp; omega), at0_eq_getElem _ _ hj]
    simp
  · rw [at0_default _ _ (by simp; omega), at0_default _ _ hj]

/-! ## Border lemmas -/

theorem borderAt_lt {p : List Nat} {i k : Nat} (h : BorderAt p i k) : k < i := h.1

theorem borderAt_zero {p : List Nat} {i : Nat} (h : 0 < i) : BorderAt p i 0 :=
  ⟨h, fun d hd => absurd hd (Nat.not_lt_zero d)⟩

/-- Bridge between the take/drop phrasing of a border (as in the spec) and
the index form used in the proofs. -/
theorem isBorderTD_iff_borderAt (p : List Nat) (i k : Nat) (hi : i ≤ p.length) :
    IsBorderTD (p.take i) k ↔ BorderAt p i k := by
  have hlen : (p.take i).length = i := by simp [hi]
  unfold IsBorderTD BorderAt
  rw [hlen]
  constructor
  · rintro ⟨hk, heq⟩
    refine ⟨hk, fun d hd => ?_⟩
    have hd1 : d < ((p.take i).take k).length := by simp; omega
    have h0 := List.getElem_of_eq heq hd1
    simp only [List.getElem_take, List.getElem_drop] at h0
    rw [at0_eq_getElem _ _ (by omega), at0_eq_getElem _ _ (by omega)]
    rw [h0]
  · rintro ⟨hk, hpt⟩
    refine ⟨hk, ?_⟩
    apply List.ext_getElem
    · simp; omega
    · intro d h1 h2
      have hdk : d < k := by simp at h1; omega
      simp only [List.getElem_take, List.getElem_drop]
      rw [← at0_eq_getElem p d (by omega), ← at0_eq_getElem p (i - k + d) (by omega)]
      exact hpt d hdk

/-- If `k` and `l` are both border lengths of `p.take i` with `k < l`,
then `k` is a border length of `p.take l`. -/
theorem borderAt_of_lt {p : List Nat} {i k l : Nat}
    (hk : BorderAt p i k) (hl : BorderAt p i l) (hkl : k < l) : BorderAt p l k := by
  obtain ⟨hki, hkp⟩ := hk
  obtain ⟨hli, hlp⟩ := hl
  refine ⟨hkl, fun d hd => ?_⟩
  have h1 : at0 p d = at0 p (i - k + d) := hkp d hd
  have h2 : at0 p (l - k + d) = at0 p (i - l + (l - k + d)) := hlp (l - k + d) (by omega)
  have h3 : i - l + (l - k + d) = i - k + d := by omega
  rw [h2, h3] at *
  omega

/-- A border of a border is a border: if `l` is a border length of
`p.take i` and `k` of `p.take l`, then `k` is a border length of
`p.take i`. -/
theorem borderAt_trans {p : List Nat} {i k l : Nat}
    (hl : BorderAt p i l) (hk : BorderAt p l k) : BorderAt p i k := by
  obtain ⟨hli, hlp⟩ := hl
  obtain ⟨hkl, hkp⟩ := hk
  refine ⟨Nat.lt_trans hkl hli, fun d hd => ?_⟩
  have h1 : at0 p d = at0 p (l - k + d) := hkp d hd
  have h2 : at0 p (l - k + d) = at0 p (i - l + (l - k + d)) := hlp (l - k + d) (by omega)
  have h3 : i - l + (l - k + d) = i - k + d := by omega
  rw [h1, h2, h3]

/-- Extending a border by one matching character: `k+1` is a border
length of `p.take (i+1)` iff `k` is one of `p.take i` and
`p[k] = p[i]`. -/
theorem borderAt_succ {p : List Nat} {i k : Nat} :
    BorderAt p (i + 1) (k + 1) ↔ BorderAt p i k ∧ at0 p k = at0 p i := by
  unfold BorderAt
  constructor
  · rintro ⟨hki, hp⟩
    have hk : k < i := by omega
    refine ⟨⟨hk, fun d hd => ?_⟩, ?_⟩
    · have := hp d (by omega)
      have h3 : i + 1 - (k + 1) + d = i - k + d := by omega
      rwa [h3] at this
    · have := hp k (by omega)
      have h3 : i + 1 - (k + 1) + k = i := by omega
      rwa [h3] at this
  · rintro ⟨⟨hki, hp⟩, hc⟩
    refine ⟨by omega, fun d hd => ?_⟩
    rcases Nat.lt_or_ge d k with hdk | hdk
    · have := hp d hdk
      have h3 : i + 1 - (k + 1) + d = i - k + d := by omega
      rwa [h3]
    · have hdk' : d = k := by omega
      subst hdk'
      have h3 : i + 1 - (d + 1) + d = i := by omega
      rwa [h3]

/-! ## lpsSpec basic facts -/

theorem lpsSpec_le (p : List Nat) (j : Nat) : lpsSpec p j ≤ j :=
  Nat.findGreatest_le j

theorem lpsSpec_isBorder (p : List Nat) (j : Nat) : BorderAt p (j + 1) (lpsSpec p j) :=
  Nat.findGreatest_spec (Nat.zero_le j) (borderAt_zero (Nat.succ_pos j))

theorem lpsSpec_greatest {p : List Nat} {j k : Nat} (h : BorderAt p (j + 1) k) :
    k ≤ lpsSpec p j :=
  Nat.le_findGreatest (Nat.lt_succ_iff.mp h.1) h

theorem lpsSpec_zero (p : List Nat) : lpsSpec p 0 = 0 :=
  rfl

/-! ## The computeLPSWithSteps loop invariant -/

/-- Invariant of the `while (i < m)` loop of `computeLPSWithSteps`, holding
at every loop head.  `hmax` says every border of `pattern[0..i]` longer
than the current `length` has already been tried and failed to extend. -/
structure LpsInv (p : List Nat) (s : LpsState) : Prop where
  hi1 : 1 ≤ s.i
  him : s.i ≤ p.length
  hlen : s.lps.length = p.length
  hborder : BorderAt p s.i s.len
  hmax : ∀ k, BorderAt p s.i k → s.len < k → s.i < p.length → at0 p k ≠ at0 p s.i
  hdone : ∀ j, j < s.i → at0 s.lps j = lpsSpec p j
  hzero : ∀ j, s.i ≤ j → at0 s.lps j = 0

theorem lpsInv_init (p : List Nat) (hm : 1 ≤ p.length) : LpsInv p (lpsInit p) := by
  refine ⟨Nat.le_refl 1, hm, by simp [lpsInit], borderAt_zero Nat.one_pos, ?_, ?_, ?_⟩
  · intro k hk h0 _
    have hk1 : k < 1 := hk.1
    have h0' : (0 : Nat) < k := h0
    omega
  · intro j hj
    have hj1 : j < 1 := hj
    have hj0 : j = 0 := by omega
    subst hj0
    show at0 (List.replicate p.length 0) 0 = lpsSpec p 0
    rw [at0_replicate, lpsSpec_zero]
  · intro j _
    show at0 (List.replicate p.length 0) j = 0
    exact at0_replicate _ _

/-- After a successful character match there is no border of
`pattern[0..i+1]` longer than `length + 1`. -/
theorem no_border_above {p : List Nat} {s : LpsState} (inv : LpsInv p s)
    (hlt : s.i < p.length) :
    ∀ n, s.len + 1 < n → BorderAt p (s.i + 1) n → False := by
  intro n hn hb
  obtain ⟨n', rfl⟩ : ∃ n', n = n' + 1 := ⟨n - 1, by omega⟩
  have h2 := borderAt_succ.mp hb
  exact inv.hmax n' h2.1 (by omega) hlt h2.2

/-- After a mismatch with `length = 0` there is no positive border of
`pattern[0..i+1]`. -/
theorem no_border_pos {p : List Nat} {s : LpsState} (inv : LpsInv p s)
    (hlt : s.i < p.length) (hc : ¬ at0 p s.i = at0 p s.len) (hL : s.len = 0) :
    ∀ n, 0 < n → BorderAt p (s.i + 1) n → False := by
  intro n hn hb
  obtain ⟨n', rfl⟩ : ∃ n', n = n' + 1 := ⟨n - 1, by omega⟩
  have h2 := borderAt_succ.mp hb
  rcases Nat.eq_zero_or_pos n' with h0 | h0
  · subst h0
    exact hc (by rw [hL]; exact h2.2.symm)
  · exact inv.hmax n' h2.1 (by omega) hlt h2.2

theorem lpsInv_body {p : List Nat} {s : LpsState} (inv : LpsInv p s)
    (hlt : s.i < p.length) : LpsInv p (lpsBody p s) := by
  have hLi : s.len < s.i := inv.hborder.1
  unfold lpsBody
  split_ifs with h1 h2
  · -- match branch: extend the border
    have hb' : BorderAt p (s.i + 1) (s.len + 1) := borderAt_succ.mpr ⟨inv.hborder, h1.symm⟩
    have hspec : lpsSpec p s.i = s.len + 1 := by
      apply Nat.findGreatest_eq_iff.mpr
      refine ⟨by omega, fun _ => hb', fun n hn1 hn2 => ?_⟩
      exact fun hb => no_border_above inv hlt n hn1 hb
    refine ⟨?_, ?_, ?_, hb', ?_, ?_, ?_⟩
    · show 1 ≤ s.i + 1
      omega
    · show s.i + 1 ≤ p.length
      omega
    · show (s.lps.set s.i (s.len + 1)).length = p.length
      simpa using inv.hlen
    · intro k hk hgt _
      have hk' : BorderAt p (s.i + 1) k := hk
      have hgt' : s.len + 1 < k := hgt
      exact (no_border_above inv hlt k hgt' hk').elim
    · intro j hj
      have hj' : j < s.i + 1 := hj
      show at0 (s.lps.set s.i (s.len + 1)) j = lpsSpec p j
      rcases Nat.lt_or_ge j s.i with hji | hji
      · rw [at0_set_ne _ _ _ _ (by omega)]
        exact inv.hdone j hji
      · have hji' : j = s.i := by omega
        subst hji'
        rw [at0_set_self _ _ _ (by rw [inv.hlen]; exact hlt), hspec]
    · intro j hj
      have hj' : s.i + 1 ≤ j := hj
      show at0 (s.lps.set s.i (s.len + 1)) j = 0
      rw [at0_set_ne _ _ _ _ (by omega)]
      exact inv.hzero j (by omega)
  · -- fallback branch: length = lps[length - 1]
    have hL1 : 1 ≤ s.len := by omega
    have hlen1 : s.len - 1 < s.i := by omega
    have hval : at0 s.lps (s.len - 1) = lpsSpec p (s.len - 1) := inv.hdone _ hlen1
    have hLL : s.len - 1 + 1 = s.len := by omega
    have hbL : BorderAt p s.len (lpsSpec p (s.len - 1)) := by
      have h := lpsSpec_isBorder p (s.len - 1)
      rwa [hLL] at h
    refine ⟨inv.hi1, inv.him, inv.hlen, ?_, ?_, inv.hdone, inv.hzero⟩
    · show BorderAt p s.i (at0 s.lps (s.len - 1))
      rw [hval]
      exact borderAt_trans inv.hborder hbL
    · intro k hk hgt him'
      have hk' : BorderAt p s.i k := hk
      have hgt' : at0 s.lps (s.len - 1) < k := hgt
      have him'' : s.i < p.length := him'
      rw [hval] at hgt'
      show at0 p k ≠ at0 p s.i
      rcases Nat.lt_trichotomy k s.len with hkL | hkL | hkL
      · -- impossible: k would be a border of p.take len longer than lpsSpec
        exfalso
        have hb2 : BorderAt p s.len k := borderAt_of_lt hk' inv.hborder hkL
        have hb3 : BorderAt p (s.len - 1 + 1) k := by rwa [hLL]
        have := lpsSpec_greatest hb3
        omega
      · subst hkL
        exact fun h => h1 h.symm
      · exact inv.hmax k hk' hkL him''
  · -- zero branch
    have hL0 : s.len = 0 := by omega
    have hspec : lpsSpec p s.i = 0 := by
      apply Nat.findGreatest_eq_zero_iff.mpr
      intro n hn _
      exact fun hb => no_border_pos inv hlt h1 hL0 n hn hb
    refine ⟨?_, ?_, ?_, ?_, ?_, ?_, ?_⟩
    · show 1 ≤ s.i + 1
      omega
    · show s.i + 1 ≤ p.length
      omega
    · show (s.lps.set s.i 0).length = p.length
      simpa using inv.hlen
    · show BorderAt p (s.i + 1) 0
      exact borderAt_zero (by omega)
    · intro k hk hgt _
      have hk' : BorderAt p (s.i + 1) k := hk
      have hgt' : 0 < k := hgt
      exact (no_border_pos inv hlt h1 hL0 k hgt' hk').elim
    · intro j hj
      have hj' : j < s.i + 1 := hj
      show at0 (s.lps.set s.i 0) j = lpsSpec p j
      rcases Nat.lt_or_ge j s.i with hji | hji
      · rw [at0_set_ne _ _ _ _ (by omega)]
        exact inv.hdone j hji
      · have hji' : j = s.i := by omega
        subst hji'
        rw [at0_set_self _ _ _ (by rw [inv.hlen]; exact hlt), hspec]
    · intro j hj
      have hj' : s.i + 1 ≤ j := hj
      show at0 (s.lps.set s.i 0) j = 0
      rw [at0_set_ne _ _ _ _ (by omega)]
      exact inv.hzero j (by omega)

theorem lpsBody_measure {p : List Nat} {s : LpsState} (inv : LpsInv p s)
    (hlt : s.i < p.length) : lpsMeasure p (lpsBody p s) < lpsMeasure p s := by
  have hLi : s.len < s.i := inv.hborder.1
  unfold lpsBody lpsMeasure
  split_ifs with h1 h2
  · show 2 * (p.length - (s.i + 1)) + (s.len + 1) < 2 * (p.length - s.i) + s.len
    omega
  · show 2 * (p.length - s.i) + at0 s.lps (s.len - 1) < 2 * (p.length - s.i) + s.len
    have hlen1 : s.len - 1 < s.i := by omega
    rw [inv.hdone _ hlen1]
    have := lpsSpec_le p (s.len - 1)
    omega
  · show 2 * (p.length - (s.i + 1)) + 0 < 2 * (p.length - s.i) + s.len
    omega

/-- The loop preserves the invariant and, given enough fuel, reaches the
exit condition `i ≥ m`. -/
theorem lpsLoop_invariant {p : List Nat} (fuel : Nat) {s : LpsState} (inv : LpsInv p s)
    (hfuel : lpsMeasure p s < fuel ∨ p.length ≤ s.i) :
    LpsInv p (lpsLoop p fuel s) ∧ p.length ≤ (lpsLoop p fuel s).i := by
  induction fuel generalizing s with
  | zero =>
    have : p.length ≤ s.i := by omega
    exact ⟨by simpa [lpsLoop] using inv, by simpa [lpsLoop] using this⟩
  | succ fuel ih =>
    rcases Nat.lt_or_ge s.i p.length with hlt | hge
    · have hinv' := lpsInv_body inv hlt
      have hmeas := lpsBody_measure inv hlt
      have hstep : lpsLoop p (fuel + 1) s = lpsLoop p fuel (lpsBody p s) := by
        simp [lpsLoop, hlt]
      rw [hstep]
      exact ih hinv' (Or.inl (by omega))
    · have hstep : lpsLoop p (fuel + 1) s = s := by
        simp [lpsLoop, Nat.not_lt.mpr hge]
      rw [hstep]
      exact ⟨inv, hge⟩

/-- The final state of the builder loop for a non-empty pattern. -/
theorem lpsLoop_final (p : List Nat) (hm : 1 ≤ p.length) :
    LpsInv p (lpsLoop p (2 * p.length) (lpsInit p)) ∧
    p.length ≤ (lpsLoop p (2 * p.length) (lpsInit p)).i := by
  apply lpsLoop_invariant _ (lpsInv_init p hm)
  left
  show 2 * (p.length - 1) + 0 < 2 * p.length
  omega

/-- The table built by `computeLPSWithSteps` holds exactly the longest
proper border lengths. -/
theorem computeLPS_correct (p : List Nat) (hm : 1 ≤ p.length) :
    (computeLPSWithSteps p).lpsArray.length = p.length ∧
    ∀ j, j < p.length → at0 (computeLPSWithSteps p).lpsArray j = lpsSpec p j := by
  obtain ⟨inv, hfin⟩ := lpsLoop_final p hm
  have hi : (lpsLoop p (2 * p.length) (lpsInit p)).i ≤ p.length := inv.him
  constructor
  · exact inv.hlen
  · intro j hj
    exact inv.hdone j (by omega)

/-- Every entry of the table satisfies `lps[k] ≤ k` (entries past the end
read as the default `0`). -/
theorem computeLPS_le (p : List Nat) (k : Nat) :
    at0 (computeLPSWithSteps p).lpsArray k ≤ k := by
  rcases Nat.eq_zero_or_pos p.length with hm | hm
  · have hp : p = [] := List.length_eq_zero.mp hm
    subst hp
    show at0 [] k ≤ k
    rw [at0_default _ _ (by simp)]
    exact Nat.zero_le k
  · obtain ⟨inv, hfin⟩ := lpsLoop_final p hm
    have hle : (lpsLoop p (2 * p.length) (lpsInit p)).i ≤ p.length := inv.him
    show at0 (lpsLoop p (2 * p.length) (lpsInit p)).lps k ≤ k
    rcases Nat.lt_or_ge k p.length with hk | hk
    · rw [inv.hdone k (by omega)]
      exact lpsSpec_le p k
    · rw [at0_default _ _ (by rw [inv.hlen]; exact hk)]
      exact Nat.zero_le k

/-! ## Filter-over-range helpers -/

theorem filter_range_extend {P : Nat → Prop} [DecidablePred P] {a b : Nat} (hab : a ≤ b)
    (h : ∀ q, a ≤ q → q < b → ¬ P q) :
    (List.range b).filter (fun q => decide (P q)) =
    (List.range a).filter (fun q => decide (P q)) := by
  obtain ⟨c, rfl⟩ : ∃ c, b = a + c := ⟨b - a, by omega⟩
  rw [List.range_add, List.filter_append]
  have hnil : ((List.range c).map (a + ·)).filter (fun q => decide (P q)) = [] := by
    apply List.filter_eq_nil_iff.mpr
    intro x hx
    simp only [List.mem_map, List.mem_range] at hx
    obtain ⟨y, hy, rfl⟩ := hx
    simpa using h (a + y) (by omega) (by omega)
  rw [hnil, List.append_nil]

theorem filter_range_snoc {P : Nat → Prop} [DecidablePred P] {a : Nat} (h : P a) :
    (List.range (a + 1)).filter (fun q => decide (P q)) =
    (List.range a).filter (fun q => decide (P q)) ++ [a] := by
  rw [List.range_succ, List.filter_append]
  simp [h]

/-! ## The kmpSearchWithSteps loop invariant -/

/-- Invariant of the `while (i < n)` loop of `kmpSearchWithSteps`, holding
at every loop head: `j` characters of the pattern currently match the text
ending at `i`, and `matchList` holds exactly the occurrences starting
before `i - j`. -/
structure KmpInv (t p : List Nat) (s : KmpState) : Prop where
  hjm : s.j < p.length
  hji : s.j ≤ s.i
  hin : s.i ≤ t.length
  hmat : ∀ d, d < s.j → at0 t (s.i - s.j + d) = at0 p d
  hms : s.matchList = (List.range (s.i - s.j)).filter (fun q => decide (OccursAt t p q))

theorem kmpInv_init (t p : List Nat) (hm : 1 ≤ p.length) : KmpInv t p kmpInit := by
  refine ⟨hm, Nat.le_refl 0, Nat.zero_le _, ?_, ?_⟩
  · intro d hd
    have hd' : d < 0 := hd
    omega
  · rfl

/-- Two overlapping alignments of prefixes of `p` against the same text
positions force a border of `p.take j`. -/
theorem overlap_border {t p : List Nat} (i j k : Nat)
    (hji : j ≤ i) (hkj : k < j)
    (hmat : ∀ d, d < j → at0 t (i - j + d) = at0 p d)
    (hocc : ∀ d, d < k → at0 t (i - k + d) = at0 p d) :
    BorderAt p j k := by
  refine ⟨hkj, fun d hd => ?_⟩
  have h1 : at0 t (i - k + d) = at0 p d := hocc d hd
  have h2 : at0 t (i - j + (j - k + d)) = at0 p (j - k + d) := hmat (j - k + d) (by omega)
  have h3 : i - j + (j - k + d) = i - k + d := by omega
  rw [h3] at h2
  rw [← h1, h2]

theorem kmpInv_body {t p lps : List Nat} {s : KmpState}
    (hm : 1 ≤ p.length) (hmn : p.length ≤ t.length)
    (hlpsd : ∀ k, k < p.length → at0 lps k = lpsSpec p k)
    (inv : KmpInv t p s) (hlt : s.i < t.length) :
    KmpInv t p (kmpBody t p lps s) := by
  have hjm := inv.hjm
  have hji := inv.hji
  simp only [kmpBody]
  split_ifs with h1 h2 h3
  · -- match with j + 1 = m : record occurrence, reset j via the table
    have hjm1 : s.j = p.length - 1 := by omega
    have hL : at0 lps (s.j + 1 - 1) = lpsSpec p (p.length - 1) := by
      have harith : s.j + 1 - 1 = p.length - 1 := by omega
      rw [harith]
      exact hlpsd (p.length - 1) (by omega)
    have hLm : lpsSpec p (p.length - 1) ≤ p.length - 1 := lpsSpec_le _ _
    have hmm : p.length - 1 + 1 = p.length := by omega
    -- the full pattern matches ending at s.i + 1
    have hfull : ∀ d, d < p.length → at0 t (s.i + 1 - p.length + d) = at0 p d := by
      intro d hd
      rcases Nat.lt_or_ge d s.j with hds | hds
      · have := inv.hmat d hds
        have harith : s.i - s.j + d = s.i + 1 - p.length + d := by omega
        rwa [harith] at this
      · have hds' : d = s.j := by omega
        subst hds'
        have harith : s.i + 1 - p.length + s.j = s.i := by omega
        rw [harith]
        exact h1.symm
    -- the recorded occurrence
    have hq0 : OccursAt t p (s.i + 1 - p.length) := by
      refine ⟨by omega, fun d hd => hfull d hd⟩
    -- no occurrence strictly between q0 and the next candidate
    have hskip : ∀ q, s.i + 1 - p.length < q → q < s.i + 1 - lpsSpec p (p.length - 1) →
        ¬ OccursAt t p q := by
      intro q hq1 hq2 hocc
      have hkrange : q ≤ s.i := by
        obtain ⟨hqn, _⟩ := hocc
        omega
      set k := s.i + 1 - q with hk
      have hkm : k < p.length := by omega
      have hkL : lpsSpec p (p.length - 1) < k := by omega
      have hb : BorderAt p p.length k := by
        apply overlap_border (s.i + 1) p.length k (by omega) hkm hfull
        intro d hd
        have := hocc.2 d (by omega)
        have harith : q + d = s.i + 1 - k + d := by omega
        rwa [harith] at this
      have := lpsSpec_greatest (by rwa [hmm] : BorderAt p (p.length - 1 + 1) k)
      omega
    refine ⟨?_, ?_, ?_, ?_, ?_⟩
    · show at0 lps (s.j + 1 - 1) < p.length
      rw [hL]
      omega
    · show at0 lps (s.j + 1 - 1) ≤ s.i + 1
      rw [hL]
      omega
    · show s.i + 1 ≤ t.length
      omega
    · intro d hd
      have hd' : d < at0 lps (s.j + 1 - 1) := hd
      rw [hL] at hd'
      show at0 t (s.i + 1 - at0 lps (s.j + 1 - 1) + d) = at0 p d
      rw [hL]
      -- lpsSpec (m-1) is a border of p; transfer through the full match
      have hbL : BorderAt p p.length (lpsSpec p (p.length - 1)) := by
        have hsp := lpsSpec_isBorder p (p.length - 1)
        rwa [hmm] at hsp
      have hpd : at0 p d = at0 p (p.length - lpsSpec p (p.length - 1) + d) := hbL.2 d hd'
      have hfd := hfull (p.length - lpsSpec p (p.length - 1) + d) (by omega)
      have harith : s.i + 1 - p.length + (p.length - lpsSpec p (p.length - 1) + d)
          = s.i + 1 - lpsSpec p (p.length - 1) + d := by omega
      rw [harith] at hfd
      rw [hfd, ← hpd]
    · show s.matchList ++ [s.i + 1 - (s.j + 1)] =
        (List.range (s.i + 1 - at0 lps (s.j + 1 - 1))).filter
          (fun q => decide (OccursAt t p q))
      rw [hL]
      have hq0' : s.i + 1 - (s.j + 1) = s.i + 1 - p.length := by omega
      rw [hq0']
      have hstep1 : (List.range (s.i + 1 - lpsSpec p (p.length - 1))).filter
          (fun q => decide (OccursAt t p q)) =
          (List.range (s.i + 1 - p.length + 1)).filter (fun q => decide (OccursAt t p q)) :=
        filter_range_extend (by omega) (fun q hq1 hq2 => hskip q (by omega) hq2)
      rw [hstep1, filter_range_snoc hq0, inv.hms]
      have harith : s.i - s.j = s.i + 1 - p.length := by omega
      rw [harith]
  · -- match with j + 1 < m : advance both indices
    have hj1m : s.j + 1 < p.length := by
      rcases Nat.lt_or_ge (s.j + 1) p.length with h | h
      · exact h
      · exact absurd (by omega : s.j + 1 = p.length) h2
    refine ⟨hj1m, ?_, ?_, ?_, ?_⟩
    · show s.j + 1 ≤ s.i + 1
      omega
    · show s.i + 1 ≤ t.length
      omega
    · intro d hd
      have hd' : d < s.j + 1 := hd
      show at0 t (s.i + 1 - (s.j + 1) + d) = at0 p d
      rcases Nat.lt_or_ge d s.j with hds | hds
      · have := inv.hmat d hds
        have harith : s.i - s.j + d = s.i + 1 - (s.j + 1) + d := by omega
        rwa [harith] at this
      · have hds' : d = s.j := by omega
        subst hds'
        have harith : s.i + 1 - (s.j + 1) + s.j = s.i := by omega
        rw [harith]
        exact h1.symm
    · show s.matchList =
        (List.range (s.i + 1 - (s.j + 1))).filter (fun q => decide (OccursAt t p q))
      have harith : s.i + 1 - (s.j + 1) = s.i - s.j := by omega
      rw [harith]
      exact inv.hms
  · -- mismatch with j != 0 : shift via the table, i unchanged
    have hj1 : 1 ≤ s.j := by omega
    have hL : at0 lps (s.j - 1) = lpsSpec p (s.j - 1) := hlpsd _ (by omega)
    have hLj : lpsSpec p (s.j - 1) ≤ s.j - 1 := lpsSpec_le _ _
    have hjj : s.j - 1 + 1 = s.j := by omega
    have hbL : BorderAt p s.j (lpsSpec p (s.j - 1)) := by
      have hsp := lpsSpec_isBorder p (s.j - 1)
      rwa [hjj] at hsp
    refine ⟨?_, ?_, inv.hin, ?_, ?_⟩
    · show at0 lps (s.j - 1) < p.length
      rw [hL]
      omega
    · show at0 lps (s.j - 1) ≤ s.i
      rw [hL]
      omega
    · intro d hd
      have hd' : d < at0 lps (s.j - 1) := hd
      rw [hL] at hd'
      show at0 t (s.i - at0 lps (s.j - 1) + d) = at0 p d
      rw [hL]
      have hpd : at0 p d = at0 p (s.j - lpsSpec p (s.j - 1) + d) := hbL.2 d hd'
      have hfd := inv.hmat (s.j - lpsSpec p (s.j - 1) + d) (by omega)
      have harith : s.i - s.j + (s.j - lpsSpec p (s.j - 1) + d)
          = s.i - lpsSpec p (s.j - 1) + d := by omega
      rw [harith] at hfd
      rw [hfd, ← hpd]
    · show s.matchList =
        (List.range (s.i - at0 lps (s.j - 1))).filter (fun q => decide (OccursAt t p q))
      rw [hL, inv.hms]
      symm
      apply filter_range_extend (by omega)
      intro q hq1 hq2 hocc
      have hqi : q ≤ s.i := by omega
      set k := s.i - q with hk
      have hkj : k ≤ s.j := by omega
      have hkL : lpsSpec p (s.j - 1) < k := by omega
      rcases Nat.eq_or_lt_of_le hkj with hkj' | hkj'
      · -- k = j : the occurrence would need p[j] = t[i], contradicting the mismatch
        have := hocc.2 s.j (by omega)
        have harith : q + s.j = s.i := by omega
        rw [harith] at this
        exact h1 this.symm
      · -- lpsSpec < k < j : k would be a border of p.take j longer than lpsSpec
        have hb : BorderAt p s.j k := by
          apply overlap_border s.i s.j k (by omega) hkj' inv.hmat
          intro d hd
          have := hocc.2 d (by omega)
          have harith : q + d = s.i - k + d := by omega
          rwa [harith] at this
        have := lpsSpec_greatest (by rwa [hjj] : BorderAt p (s.j - 1 + 1) k)
        omega
  · -- mismatch with j = 0 : advance i
    have hj0 : s.j = 0 := by omega
    refine ⟨inv.hjm, ?_, ?_, ?_, ?_⟩
    · show s.j ≤ s.i + 1
      omega
    · show s.i + 1 ≤ t.length
      omega
    · intro d hd
      have hd' : d < s.j := hd
      exact absurd hd' (by omega)
    · show s.matchList =
        (List.range (s.i + 1 - s.j)).filter (fun q => decide (OccursAt t p q))
      rw [inv.hms]
      symm
      apply filter_range_extend (by omega)
      intro q hq1 hq2 hocc
      have hq : q = s.i := by omega
      subst hq
      have := hocc.2 0 (by omega)
      rw [Nat.add_zero] at this
      rw [hj0] at h1
      exact h1 this.symm

/-- The measure decreases on every iteration, for any table with
`lps[k] ≤ k` everywhere. -/
theorem kmpBody_measure {t lps : List Nat} (p : List Nat) {s : KmpState}
    (hle : ∀ k, at0 lps k ≤ k) (hlt : s.i < t.length) :
    kmpMeasure t (kmpBody t p lps s) < kmpMeasure t s := by
  simp only [kmpBody, kmpMeasure]
  split_ifs with h1 h2 h3
  · show 2 * (t.length - (s.i + 1)) + at0 lps (s.j + 1 - 1) < 2 * (t.length - s.i) + s.j
    have := hle (s.j + 1 - 1)
    omega
  · show 2 * (t.length - (s.i + 1)) + (s.j + 1) < 2 * (t.length - s.i) + s.j
    omega
  · show 2 * (t.length - s.i) + at0 lps (s.j - 1) < 2 * (t.length - s.i) + s.j
    have := hle (s.j - 1)
    omega
  · show 2 * (t.length - (s.i + 1)) + s.j < 2 * (t.length - s.i) + s.j
    omega

/-- With enough fuel the scanner loop reaches its exit condition, for any
table with `lps[k] ≤ k` everywhere (in particular the one built by
`computeLPSWithSteps`). -/
theorem kmpLoop_exit {t p lps : List Nat} (hle : ∀ k, at0 lps k ≤ k) (fuel : Nat)
    (s : KmpState) (hfuel : kmpMeasure t s < fuel ∨ t.length ≤ s.i) :
    t.length ≤ (kmpLoop t p lps fuel s).i := by
  induction fuel generalizing s with
  | zero =>
    have : t.length ≤ s.i := by omega
    simpa [kmpLoop] using this
  | succ fuel ih =>
    rcases Nat.lt_or_ge s.i t.length with hlt | hge
    · have hmeas := kmpBody_measure p hle hlt
      have hstep : kmpLoop t p lps (fuel + 1) s = kmpLoop t p lps fuel (kmpBody t p lps s) := by
        simp [kmpLoop, hlt]
      rw [hstep]
      exact ih _ (Or.inl (by omega))
    · have hstep : kmpLoop t p lps (fuel + 1) s = s := by
        simp [kmpLoop, Nat.not_lt.mpr hge]
      rw [hstep]
      exact hge

/-- The scanner loop preserves the invariant and reaches the exit. -/
theorem kmpLoop_invariant {t p lps : List Nat}
    (hm : 1 ≤ p.length) (hmn : p.length ≤ t.length)
    (hlpsd : ∀ k, k < p.length → at0 lps k = lpsSpec p k)
    (fuel : Nat) (s : KmpState) (inv : KmpInv t p s)
    (hfuel : kmpMeasure t s < fuel ∨ t.length ≤ s.i) :
    KmpInv t p (kmpLoop t p lps fuel s) ∧ t.length ≤ (kmpLoop t p lps fuel s).i := by
  induction fuel generalizing s with
  | zero =>
    have h : t.length ≤ s.i := by omega
    exact ⟨by simpa [kmpLoop] using inv, by simpa [kmpLoop] using h⟩
  | succ fuel ih =>
    rcases Nat.lt_or_ge s.i t.length with hlt | hge
    · have hinv' := kmpInv_body hm hmn hlpsd inv hlt
      have hle : ∀ k, k < p.length → at0 lps k ≤ k := by
        intro k hk
        rw [hlpsd k hk]
        exact lpsSpec_le p k
      -- measure decrease: all table accesses of this iteration are in range
      have hmeas : kmpMeasure t (kmpBody t p lps s) < kmpMeasure t s := by
        have hjm := inv.hjm
        simp only [kmpBody, kmpMeasure]
        split_ifs with h1 h2 h3
        · show 2 * (t.length - (s.i + 1)) + at0 lps (s.j + 1 - 1) <
            2 * (t.length - s.i) + s.j
          have := hle (s.j + 1 - 1) (by omega)
          omega
        · show 2 * (t.length - (s.i + 1)) + (s.j + 1) < 2 * (t.length - s.i) + s.j
          omega
        · show 2 * (t.length - s.i) + at0 lps (s.j - 1) < 2 * (t.length - s.i) + s.j
          have := hle (s.j - 1) (by omega)
          omega
        · show 2 * (t.length - (s.i + 1)) + s.j < 2 * (t.length - s.i) + s.j
          omega
      have hstep : kmpLoop t p lps (fuel + 1) s = kmpLoop t p lps fuel (kmpBody t p lps s) := by
        simp [kmpLoop, hlt]
      rw [hstep]
      exact ih _ hinv' (Or.inl (by omega))
    · have hstep : kmpLoop t p lps (fuel + 1) s = s := by
        simp [kmpLoop, Nat.not_lt.mpr hge]
      rw [hstep]
      exact ⟨inv, hge⟩

/-! ## Bridging OccursAt with the spec-level slice equation -/

theorem occursAt_iff_slice {t p : List Nat} {q : Nat} (hm : 1 ≤ p.length) :
    OccursAt t p q ↔ (t.drop q).take p.length = p := by
  constructor
  · rintro ⟨hqn, hpt⟩
    apply List.ext_getElem
    · simp
      omega
    · intro d h1 h2
      have hd : d < p.length := h2
      simp only [List.getElem_take, List.getElem_drop]
      have h3 := hpt d hd
      rw [at0_eq_getElem t (q + d) (by omega), at0_eq_getElem p d hd] at h3
      exact h3
  · intro heq
    have hlen : ((t.drop q).take p.length).length = p.length := by rw [heq]
    simp only [List.length_take, List.length_drop] at hlen
    have hqn : q + p.length ≤ t.length := by omega
    refine ⟨hqn, fun d hd => ?_⟩
    have hd1 : d < ((t.drop q).take p.length).length := by
      simp only [List.length_take, List.length_drop]
      omega
    have h0 := List.getElem_of_eq heq hd1
    simp only [List.getElem_take, List.getElem_drop] at h0
    rw [at0_eq_getElem _ _ (by omega), at0_eq_getElem _ _ hd]
    exact h0

/-- Core correctness of the exact-match pipeline: the scanner's MatchSet,
with the table built by `computeLPSWithSteps`, is the brute-force
MatchSet. -/
theorem kmpSearch_matches (t p : List Nat) (hm : 1 ≤ p.length) (hmn : p.length ≤ t.length) :
    (kmpSearchWithSteps t p (computeLPSWithSteps p).lpsArray).matchList
      = bruteForceMatches t p := by
  obtain ⟨-, hlpsd⟩ := computeLPS_correct p hm
  obtain ⟨inv, hexit⟩ := kmpLoop_invariant hm hmn hlpsd (2 * t.length + 1) kmpInit
    (kmpInv_init t p hm)
    (Or.inl (by show 2 * (t.length - 0) + 0 < 2 * t.length + 1; omega))
  set sf := kmpLoop t p (computeLPSWithSteps p).lpsArray (2 * t.length + 1) kmpInit with hsf
  have hieq : sf.i = t.length := by
    have := inv.hin
    omega
  show sf.matchList = bruteForceMatches t p
  rw [inv.hms]
  unfold bruteForceMatches
  have hjm := inv.hjm
  have hstep1 : (List.range (sf.i - sf.j)).filter (fun q => decide (OccursAt t p q)) =
      (List.range (t.length - p.length + 1)).filter (fun q => decide (OccursAt t p q)) := by
    apply filter_range_extend (by omega)
    intro q hq1 hq2 hocc
    have := hocc.1
    omega
  rw [hstep1]
  apply List.filter_congr
  intro q hq
  rw [List.mem_range] at hq
  apply decide_eq_decide.mpr
  exact occursAt_iff_slice hm

/-! ## Horner-scheme arithmetic -/

theorem foldl_horner_mod (base mod : Nat) (l : List Nat) (a : Nat) :
    l.foldl (fun h c => (h * base + c) % mod) (a % mod) =
    (l.foldl (fun h c => h * base + c) a) % mod := by
  induction l generalizing a with
  | nil => rfl
  | cons c l ih =>
    simp only [List.foldl_cons]
    have hstep : (a % mod * base + c) % mod = (a * base + c) % mod :=
      ((Nat.mod_modEq a mod).mul_right base).add_right c
    rw [hstep]
    exact ih (a * base + c)

theorem computeHash_eq_polyVal (str : List Nat) (base mod : Nat) :
    computeHash str base mod = polyVal base str % mod := by
  unfold computeHash polyVal
  have h := foldl_horner_mod base mod str 0
  rwa [Nat.zero_mod] at h

theorem foldl_horner_shift (base : Nat) (l : List Nat) (a : Nat) :
    l.foldl (fun h c => h * base + c) a = a * base ^ l.length + polyVal base l := by
  induction l generalizing a with
  | nil => simp [polyVal]
  | cons c l ih =>
    show List.foldl _ (a * base + c) l = a * base ^ (l.length + 1) + polyVal base (c :: l)
    rw [ih (a * base + c)]
    have hp : polyVal base (c :: l) = c * base ^ l.length + polyVal base l := by
      show List.foldl _ (0 * base + c) l = _
      rw [Nat.zero_mul, Nat.zero_add, ih c]
    rw [hp, Nat.pow_succ]
    ring

theorem polyVal_cons (base c : Nat) (l : List Nat) :
    polyVal base (c :: l) = c * base ^ l.length + polyVal base l := by
  show List.foldl _ (0 * base + c) l = _
  rw [Nat.zero_mul, Nat.zero_add, foldl_horner_shift]

theorem polyVal_append_singleton (base : Nat) (l : List Nat) (c : Nat) :
    polyVal base (l ++ [c]) = polyVal base l * base + c := by
  unfold polyVal
  rw [List.foldl_append]
  rfl

theorem polyVal_eq_sum (base : Nat) (l : List Nat) :
    polyVal base l = ∑ k ∈ Finset.range l.length, at0 l k * base ^ (l.length - 1 - k) := by
  induction l with
  | nil => simp [polyVal]
  | cons c l ih =>
    rw [polyVal_cons, ih]
    rw [List.length_cons, Finset.sum_range_succ']
    have h0 : at0 (c :: l) 0 * base ^ (l.length + 1 - 1 - 0) = c * base ^ l.length := by
      simp [at0]
    rw [h0, Nat.add_comm]
    congr 1
    apply Finset.sum_congr rfl
    intro k hk
    rw [Finset.mem_range] at hk
    have h1 : at0 (c :: l) (k + 1) = at0 l k := by simp [at0]
    have h2 : l.length + 1 - 1 - (k + 1) = l.length - 1 - k := by omega
    rw [h1, h2]

/-- The helper `computeH` computes `base^(m-1)` up to congruence mod `mod`. -/
theorem foldl_mul_mod (base mod : Nat) (k a : Nat) :
    (List.range k).foldl (fun h _ => (h * base) % mod) a ≡ a * base ^ k [MOD mod] := by
  induction k generalizing a with
  | zero => simp [Nat.ModEq.refl]
  | succ k ih =>
    rw [List.range_succ, List.foldl_append]
    simp only [List.foldl_cons, List.foldl_nil]
    calc ((List.range k).foldl (fun h _ => (h * base) % mod) a * base) % mod
        ≡ (List.range k).foldl (fun h _ => (h * base) % mod) a * base [MOD mod] :=
          Nat.mod_modEq _ _
      _ ≡ a * base ^ k * base [MOD mod] := (ih a).mul_right base
      _ = a * base ^ (k + 1) := by rw [Nat.pow_succ, Nat.mul_assoc]

theorem computeH_modEq (m base mod : Nat) :
    computeH m base mod ≡ base ^ (m - 1) [MOD mod] := by
  unfold computeH
  have h := foldl_mul_mod base mod (m - 1) 1
  rwa [Nat.one_mul] at h

/-! ## Int arithmetic for the rolling update -/

theorem int_tmod_modEq (a b : Int) : a.tmod b ≡ a [ZMOD b] := by
  have h : a - a.tmod b = b * a.tdiv b := by
    rw [Int.tmod_def]
    ring
  exact Int.modEq_iff_dvd.mpr ⟨a.tdiv b, h⟩

theorem int_neg_lt_tmod (a : Int) {b : Int} (hb : 0 < b) : -b < a.tmod b := by
  rcases Int.le_or_lt 0 a with ha | ha
  · have := Int.tmod_nonneg b ha
    omega
  · have hneg : a.tmod b = -((-a).tmod b) := by
      rw [Int.tmod_def, Int.tmod_def, Int.neg_tdiv]
      ring
    have := Int.tmod_lt_of_pos (-a) hb
    omega

/-- The source's normalization `((x % mod) + mod) % mod` (with JS
truncating `%`) equals the Euclidean remainder. -/
theorem tmod_norm {q : Int} (hq : 0 < q) (x : Int) :
    (x.tmod q + q).tmod q = x.emod q := by
  have h1 : x.tmod q < q := Int.tmod_lt_of_pos x hq
  have h2 : -q < x.tmod q := int_neg_lt_tmod x hq
  have h3 : (0 : Int) ≤ x.tmod q + q := by omega
  rw [Int.tmod_eq_emod h3 (Int.le_of_lt hq), Int.add_emod_self]
  exact int_tmod_modEq x q

/-! ## Rolling-update correctness -/

theorem rollingUpdate_eq {base mod : Nat} (hmod : 0 < mod) (c c' h : Nat) (u : List Nat)
    (hh : h ≡ base ^ u.length [MOD mod]) :
    rollingUpdate base mod ((computeHash (c :: u) base mod : Nat) : Int) c c' h
      = ((computeHash (u ++ [c']) base mod : Nat) : Int) := by
  have hmodZ : (0 : Int) < (mod : Int) := by exact_mod_cast hmod
  unfold rollingUpdate
  rw [tmod_norm hmodZ]
  rw [computeHash_eq_polyVal, computeHash_eq_polyVal, polyVal_cons, polyVal_append_singleton]
  have hhZ : (h : Int) % (mod : Int) = ((base : Int) ^ u.length) % (mod : Int) := by
    exact_mod_cast hh
  have h1 : (((c * base ^ u.length + polyVal base u) % mod : Nat) : Int)
      ≡ (c : Int) * (base : Int) ^ u.length + (polyVal base u : Int) [ZMOD (mod : Int)] := by
    have hc : (((c * base ^ u.length + polyVal base u) % mod : Nat) : Int)
        = ((c : Int) * (base : Int) ^ u.length + (polyVal base u : Int)) % (mod : Int) := by
      push_cast
      ring_nf
    rw [hc]
    show (_ % (mod : Int)) % (mod : Int) = _ % (mod : Int)
    exact Int.emod_emod_of_dvd _ dvd_rfl
  have h2 : (c : Int) * (h : Int)
      ≡ (c : Int) * (base : Int) ^ u.length [ZMOD (mod : Int)] :=
    Int.ModEq.mul_left _ hhZ
  have h3 : (base : Int) * ((((c * base ^ u.length + polyVal base u) % mod : Nat) : Int)
        - (c : Int) * (h : Int)) + (c' : Int)
      ≡ (base : Int) * (((c : Int) * (base : Int) ^ u.length + (polyVal base u : Int))
        - (c : Int) * (base : Int) ^ u.length) + (c' : Int) [ZMOD (mod : Int)] :=
    ((h1.sub h2).mul_left (base : Int)).add_right (c' : Int)
  have h4 : (base : Int) * (((c : Int) * (base : Int) ^ u.length + (polyVal base u : Int))
        - (c : Int) * (base : Int) ^ u.length) + (c' : Int)
      = (polyVal base u : Int) * (base : Int) + (c' : Int) := by
    ring
  calc ((base : Int) * ((((c * base ^ u.length + polyVal base u) % mod : Nat) : Int)
          - (c : Int) * (h : Int)) + (c' : Int)) % (mod : Int)
      = ((base : Int) * (((c : Int) * (base : Int) ^ u.length + (polyVal base u : Int))
          - (c : Int) * (base : Int) ^ u.length) + (c' : Int)) % (mod : Int) := h3
    _ = ((polyVal base u : Int) * (base : Int) + (c' : Int)) % (mod : Int) := by rw [h4]
    _ = (((polyVal base u * base + c') % mod : Nat) : Int) := by push_cast; ring_nf

/-! ## Window decomposition -/

theorem rkWindow_length {t : List Nat} {m q : Nat} (hq : q + m ≤ t.length) :
    (rkWindow t m q).length = m := by
  unfold rkWindow
  simp
  omega

theorem rkWindow_cons {t : List Nat} {m q : Nat} (hm : 1 ≤ m) (hq : q + m ≤ t.length) :
    rkWindow t m q = at0 t q :: (t.drop (q + 1)).take (m - 1) := by
  unfold rkWindow
  have hql : q < t.length := by omega
  rw [List.drop_eq_getElem_cons hql, ← at0_eq_getElem t q hql]
  obtain ⟨m', rfl⟩ : ∃ m', m = m' + 1 := ⟨m - 1, by omega⟩
  rw [List.take_succ_cons]
  simp

theorem rkWindow_snoc {t : List Nat} {m q : Nat} (hm : 1 ≤ m) (hq : q + m < t.length) :
    rkWindow t m (q + 1) = (t.drop (q + 1)).take (m - 1) ++ [at0 t (q + m)] := by
  unfold rkWindow
  obtain ⟨m', rfl⟩ : ∃ m', m = m' + 1 := ⟨m - 1, by omega⟩
  rw [List.take_succ]
  simp only [Nat.add_sub_cancel]
  congr 1
  have hidx : q + 1 + m' = q + (m' + 1) := by omega
  have hlt : q + (m' + 1) < t.length := by omega
  rw [List.getElem?_drop, hidx, List.getElem?_eq_getElem hlt]
  rw [at0_eq_getElem t (q + (m' + 1)) hlt]
  rfl

theorem overlap_length {t : List Nat} {m q : Nat} (hm : 1 ≤ m) (hq : q + m ≤ t.length) :
    ((t.drop (q + 1)).take (m - 1)).length = m - 1 := by
  simp
  omega

/-- The rolling update step of the scanner, expressed on windows. -/
theorem rolling_window_eq {t : List Nat} {m base mod : Nat} (hmod : 0 < mod) (hm : 1 ≤ m)
    {q : Nat} (hq : q + m < t.length) (h : Nat) (hh : h ≡ base ^ (m - 1) [MOD mod]) :
    rollingUpdate base mod ((computeHash (rkWindow t m q) base mod : Nat) : Int)
        (at0 t q) (at0 t (q + m)) h
      = ((computeHash (rkWindow t m (q + 1)) base mod : Nat) : Int) := by
  rw [rkWindow_cons hm (by omega), rkWindow_snoc hm hq]
  apply rollingUpdate_eq hmod
  rw [overlap_length hm (by omega)]
  exact hh

/-! ## Verification loop -/

theorem verifyList_snd (t p : List Nat) (i : Nat) (l : List Nat) :
    (verifyList t p i l).2 = true ↔ ∀ j ∈ l, at0 t (i + j) = at0 p j := by
  induction l with
  | nil =>
    simp [verifyList]
  | cons j l ih =>
    simp only [verifyList]
    split_ifs with h
    · show (verifyList t p i l).2 = true ↔ _
      rw [ih]
      constructor
      · intro hall j' hj'
        rcases List.mem_cons.mp hj' with rfl | hmem
        · exact h
        · exact hall j' hmem
      · intro hall j' hj'
        exact hall j' (List.mem_cons_of_mem _ hj')
    · constructor
      · intro hf
        exact absurd hf (by simp)
      · intro hall
        exact absurd (hall j (List.mem_cons_self _ _)) h

theorem verifyList_range (t p : List Nat) (i : Nat) :
    ((verifyList t p i (List.range p.length)).2 = true) ↔
      ∀ d, d < p.length → at0 t (i + d) = at0 p d := by
  rw [verifyList_snd]
  constructor
  · intro h d hd
    exact h d (List.mem_range.mpr hd)
  · intro h d hd
    exact h d (List.mem_range.mp hd)

/-! ## rkBody field equations -/

theorem rkBody_textHash (t p : List Nat) (ph base mod h : Nat) (s : RkState) (i : Nat) :
    (rkBody t p ph base mod h s i).textHash =
      if i < t.length - p.length then
        rollingUpdate base mod s.textHash (at0 t i) (at0 t (i + p.length)) h
      else s.textHash := by
  simp only [rkBody]
  split_ifs <;> rfl

theorem rkBody_matchList (t p : List Nat) (ph base mod h : Nat) (s : RkState) (i : Nat) :
    (rkBody t p ph base mod h s i).matchList =
      if (ph : Int) = s.textHash then
        if (verifyList t p i (List.range p.length)).2 then s.matchList ++ [i]
        else s.matchList
      else s.matchList := by
  simp only [rkBody]
  split_ifs <;> rfl

theorem rkBody_steps_mono (t p : List Nat) (ph base mod h : Nat) (s : RkState) (i : Nat) :
    ∀ x ∈ s.steps, x ∈ (rkBody t p ph base mod h s i).steps := by
  intro x hx
  simp only [rkBody]
  split_ifs <;> simp [List.mem_append, hx]

theorem rkBody_roll_mem (t p : List Nat) (ph base mod h : Nat) (s : RkState) (i : Nat)
    (hroll : i < t.length - p.length) :
    RkStep.rolling_hash i (i + 1) (at0 t i) (at0 t (i + p.length)) s.textHash
        (rollingUpdate base mod s.textHash (at0 t i) (at0 t (i + p.length)) h) h
      ∈ (rkBody t p ph base mod h s i).steps := by
  simp only [rkBody]
  split_ifs <;> first
    | simp [List.mem_append]
    | omega

theorem rkBody_spur (t p : List Nat) (ph base mod h : Nat) (s : RkState) (i : Nat)
    (hph : (ph : Int) = s.textHash)
    (hv : ¬ (verifyList t p i (List.range p.length)).2 = true) :
    HasSpurious (rkBody t p ph base mod h s i).steps i := by
  simp only [rkBody]
  rw [if_pos hph, if_neg hv]
  by_cases hr : i < t.length - p.length
  · rw [if_pos hr]
    exact ⟨i + p.length - 1, ph, s.textHash, s.hashComparisons + 1,
      s.charComparisons + (verifyList t p i (List.range p.length)).1.length,
      (verifyList t p i (List.range p.length)).1, by simp [List.mem_append]⟩
  · rw [if_neg hr]
    exact ⟨i + p.length - 1, ph, s.textHash, s.hashComparisons + 1,
      s.charComparisons + (verifyList t p i (List.range p.length)).1.length,
      (verifyList t p i (List.range p.length)).1, by simp [List.mem_append]⟩

theorem rkBody_roll_inv (t p : List Nat) (ph base mod h : Nat) (s : RkState) (i : Nat)
    (ows nws rc ac : Nat) (oh nh : Int) (hv : Nat)
    (hmem : RkStep.rolling_hash ows nws rc ac oh nh hv ∈ (rkBody t p ph base mod h s i).steps) :
    RkStep.rolling_hash ows nws rc ac oh nh hv ∈ s.steps ∨
      (i < t.length - p.length ∧ ows = i ∧ nws = i + 1 ∧ rc = at0 t i ∧
        ac = at0 t (i + p.length) ∧ oh = s.textHash ∧
        nh = rollingUpdate base mod s.textHash (at0 t i) (at0 t (i + p.length)) h ∧
        hv = h) := by
  simp only [rkBody] at hmem
  by_cases hph : (ph : Int) = s.textHash
  · rw [if_pos hph] at hmem
    by_cases hv2 : (verifyList t p i (List.range p.length)).2 = true
    · rw [if_pos hv2] at hmem
      by_cases hr : i < t.length - p.length
      · rw [if_pos hr] at hmem
        simp only [List.mem_append, List.mem_singleton] at hmem
        rcases hmem with ((hmem | hmem) | hmem) | hmem
        · exact Or.inl hmem
        · exact absurd hmem (by simp)
        · exact absurd hmem (by simp)
        · simp only [RkStep.rolling_hash.injEq] at hmem
          right
          refine ⟨hr, hmem.1, hmem.2.1, hmem.2.2.1, hmem.2.2.2.1, hmem.2.2.2.2.1,
            hmem.2.2.2.2.2.1, hmem.2.2.2.2.2.2⟩
      · rw [if_neg hr] at hmem
        simp only [List.mem_append, List.mem_singleton] at hmem
        rcases hmem with (hmem | hmem) | hmem
        · exact Or.inl hmem
        · exact absurd hmem (by simp)
        · exact absurd hmem (by simp)
    · rw [if_neg hv2] at hmem
      by_cases hr : i < t.length - p.length
      · rw [if_pos hr] at hmem
        simp only [List.mem_append, List.mem_singleton] at hmem
        rcases hmem with ((hmem | hmem) | hmem) | hmem
        · exact Or.inl hmem
        · exact absurd hmem (by simp)
        · exact absurd hmem (by simp)
        · simp only [RkStep.rolling_hash.injEq] at hmem
          right
          refine ⟨hr, hmem.1, hmem.2.1, hmem.2.2.1, hmem.2.2.2.1, hmem.2.2.2.2.1,
            hmem.2.2.2.2.2.1, hmem.2.2.2.2.2.2⟩
      · rw [if_neg hr] at hmem
        simp only [List.mem_append, List.mem_singleton] at hmem
        rcases hmem with (hmem | hmem) | hmem
        · exact Or.inl hmem
        · exact absurd hmem (by simp)
        · exact absurd hmem (by simp)
  · rw [if_neg hph] at hmem
    by_cases hr : i < t.length - p.length
    · rw [if_pos hr] at hmem
      simp only [List.mem_append, List.mem_singleton] at hmem
      rcases hmem with (hmem | hmem) | hmem
      · exact Or.inl hmem
      · exact absurd hmem (by simp)
      · simp only [RkStep.rolling_hash.injEq] at hmem
        right
        refine ⟨hr, hmem.1, hmem.2.1, hmem.2.2.1, hmem.2.2.2.1, hmem.2.2.2.2.1,
          hmem.2.2.2.2.2.1, hmem.2.2.2.2.2.2⟩
    · rw [if_neg hr] at hmem
      simp only [List.mem_append, List.mem_singleton] at hmem
      rcases hmem with hmem | hmem
      · exact Or.inl hmem
      · exact absurd hmem (by simp)

/-! ## The Rabin-Karp window-loop invariant -/

/-- Invariant of the window loop of `rabinKarpSearchWithSteps` after `k`
iterations: the running `textHash` is the from-scratch Horner hash of the
current window, `matchList` holds exactly the verified hits so far, every
window shift so far emitted a correct `rolling_hash` step, every
`rolling_hash` step carries the from-scratch hashes of its windows, and
every hash collision so far emitted a `spurious_hit` step. -/
structure RkInv (t p : List Nat) (ph base mod h k : Nat) (s : RkState) : Prop where
  hth : s.textHash =
    ((computeHash (rkWindow t p.length (min k (t.length - p.length))) base mod : Nat) : Int)
  hms : s.matchList = (List.range k).filter (fun q => decide (RkHit t p ph base mod q))
  hrolls : ∀ w, 1 ≤ w → w ≤ min k (t.length - p.length) →
    RkStep.rolling_hash (w - 1) w (at0 t (w - 1)) (at0 t (w - 1 + p.length))
      ((computeHash (rkWindow t p.length (w - 1)) base mod : Nat) : Int)
      ((computeHash (rkWindow t p.length w) base mod : Nat) : Int) h ∈ s.steps
  hrollv : ∀ ows nws rc ac oh nh hv,
    RkStep.rolling_hash ows nws rc ac oh nh hv ∈ s.steps →
    nws = ows + 1 ∧
      oh = ((computeHash (rkWindow t p.length ows) base mod : Nat) : Int) ∧
      nh = ((computeHash (rkWindow t p.length nws) base mod : Nat) : Int)
  hspur : ∀ q, q < k → ph = computeHash (rkWindow t p.length q) base mod →
    ¬ (∀ d, d < p.length → at0 t (q + d) = at0 p d) → HasSpurious s.steps q

theorem hasSpurious_mono {steps steps' : List RkStep} (q : Nat)
    (hsub : ∀ x ∈ steps, x ∈ steps') (h : HasSpurious steps q) : HasSpurious steps' q := by
  obtain ⟨we, ph, th, hc, cc, v, hmem⟩ := h
  exact ⟨we, ph, th, hc, cc, v, hsub _ hmem⟩

theorem rkInv_init (t p : List Nat) (ph base mod h : Nat) :
    RkInv t p ph base mod h 0 (rkInit t p ph base mod h) := by
  refine ⟨?_, rfl, ?_, ?_, ?_⟩
  · show ((computeHash (t.take p.length) base mod : Nat) : Int) = _
    simp [rkWindow]
  · intro w hw1 hw2
    have hw0 : w ≤ min 0 (t.length - p.length) := hw2
    simp at hw0
    omega
  · intro ows nws rc ac oh nh hv hmem
    exact absurd hmem (by simp [rkInit])
  · intro q hq
    omega

theorem rkInv_body {t p : List Nat} {ph base mod h : Nat}
    (hmod : 0 < mod) (hm : 1 ≤ p.length) (hmn : p.length ≤ t.length)
    (hh : h ≡ base ^ (p.length - 1) [MOD mod]) {k : Nat} {s : RkState}
    (hk : k ≤ t.length - p.length) (inv : RkInv t p ph base mod h k s) :
    RkInv t p ph base mod h (k + 1) (rkBody t p ph base mod h s k) := by
  have hminE : min k (t.length - p.length) = k := Nat.min_eq_left hk
  have hth := inv.hth
  rw [hminE] at hth
  have hrollval : k < t.length - p.length →
      rollingUpdate base mod s.textHash (at0 t k) (at0 t (k + p.length)) h
        = ((computeHash (rkWindow t p.length (k + 1)) base mod : Nat) : Int) := by
    intro hr
    rw [hth]
    exact rolling_window_eq hmod hm (by omega) h hh
  refine ⟨?_, ?_, ?_, ?_, ?_⟩
  · -- textHash
    rw [rkBody_textHash]
    split_ifs with hr
    · have hmin1 : min (k + 1) (t.length - p.length) = k + 1 := Nat.min_eq_left (by omega)
      rw [hmin1]
      exact hrollval hr
    · have hkr : k = t.length - p.length := by omega
      have hmin1 : min (k + 1) (t.length - p.length) = k := by omega
      rw [hmin1, hth]
  · -- matchList
    rw [rkBody_matchList]
    split_ifs with hph hv
    · -- verified hit at k
      have hhit : RkHit t p ph base mod k := by
        refine ⟨?_, (verifyList_range t p k).mp hv⟩
        have := hph.trans hth
        exact_mod_cast this
      rw [inv.hms, filter_range_snoc hhit]
    · -- spurious hit at k: not recorded
      have hnot : ¬ RkHit t p ph base mod k := by
        rintro ⟨h1, h2⟩
        exact hv ((verifyList_range t p k).mpr h2)
      rw [inv.hms]
      exact (filter_range_extend (by omega)
        (fun q hq1 hq2 => by
          have hqk : q = k := by omega
          subst hqk
          exact hnot)).symm
    · -- hash mismatch at k: not recorded
      have hnot : ¬ RkHit t p ph base mod k := by
        rintro ⟨h1, h2⟩
        apply hph
        rw [hth, h1]
      rw [inv.hms]
      exact (filter_range_extend (by omega)
        (fun q hq1 hq2 => by
          have hqk : q = k := by omega
          subst hqk
          exact hnot)).symm
  · -- rolling steps present
    intro w hw1 hw2
    rcases Nat.lt_or_ge (min k (t.length - p.length)) w with hwk | hwk
    · -- the new rolling step: w = k + 1 and k < n - m
      have hw2' : w ≤ t.length - p.length := le_trans hw2 (Nat.min_le_right _ _)
      have hwk1 : w = k + 1 := by
        have := le_trans hw2 (Nat.min_le_left _ _)
        omega
      subst hwk1
      have hr : k < t.length - p.length := by omega
      have hmem := rkBody_roll_mem t p ph base mod h s k hr
      rw [hrollval hr, hth] at hmem
      have harith : k + 1 - 1 = k := rfl
      exact hmem
    · -- an old rolling step, carried over
      have hold := inv.hrolls w hw1 hwk
      exact rkBody_steps_mono t p ph base mod h s k _ hold
  · -- rolling step validity
    intro ows nws rc ac oh nh hv hmem
    rcases rkBody_roll_inv t p ph base mod h s k ows nws rc ac oh nh hv hmem with
      hold | ⟨hr, rfl, rfl, rfl, rfl, rfl, rfl, rfl⟩
    · exact inv.hrollv ows nws rc ac oh nh hv hold
    · exact ⟨rfl, hth, hrollval hr⟩
  · -- spurious hits recorded
    intro q hq hphq hnm
    rcases Nat.lt_or_ge q k with hqk | hqk
    · exact hasSpurious_mono q (rkBody_steps_mono t p ph base mod h s k)
        (inv.hspur q hqk hphq hnm)
    · have hqk' : q = k := by omega
      subst hqk'
      apply rkBody_spur
      · rw [hth, hphq]
      · intro hv2
        exact hnm ((verifyList_range t p q).mp hv2)

/-- The invariant holds after any number of iterations up to the loop
bound. -/
theorem rkRun_inv (t p : List Nat) (ph base mod h : Nat)
    (hmod : 0 < mod) (hm : 1 ≤ p.length) (hmn : p.length ≤ t.length)
    (hh : h ≡ base ^ (p.length - 1) [MOD mod]) :
    ∀ k, k ≤ t.length + 1 - p.length →
      RkInv t p ph base mod h k (rkRun t p ph base mod h k) := by
  intro k
  induction k with
  | zero =>
    intro _
    exact rkInv_init t p ph base mod h
  | succ k ih =>
    intro hk1
    have hk : k ≤ t.length - p.length := by omega
    have hrun : rkRun t p ph base mod h (k + 1)
        = rkBody t p ph base mod h (rkRun t p ph base mod h k) k := by
      unfold rkRun
      rw [List.range_succ, List.foldl_append]
      rfl
    rw [hrun]
    exact rkInv_body hmod hm hmn hh hk (ih (by omega))

/-! ## Extraction lemmas for the Rabin-Karp pipeline -/

theorem hashFold_hash (base mod : Nat) (l : List (Nat × Nat)) (r : HashResult) :
    (l.foldl (fun (r : HashResult) (ic : Nat × Nat) =>
      { hash := (r.hash * base + ic.2) % mod
        steps := r.steps ++ [.hash_step ic.1 ic.2 r.hash ((r.hash * base + ic.2) % mod)] })
      r).hash
    = (l.map Prod.snd).foldl (fun hash c => (hash * base + c) % mod) r.hash := by
  induction l generalizing r with
  | nil => rfl
  | cons ic l ih =>
    simp only [List.foldl_cons, List.map_cons]
    exact ih _

/-- The hash returned by the instrumented hasher is the plain Horner
hash. -/
theorem computePatternHash_hash (p : List Nat) (base mod : Nat) :
    (computePatternHashWithSteps p base mod).hash = computeHash p base mod := by
  have h := hashFold_hash base mod p.enum ⟨0, [HashStep.hash_init p base mod 0]⟩
  rw [List.enum_map_snd] at h
  exact h

theorem rkHit_iff_occursAt {t p : List Nat} {base mod q : Nat}
    (hq : q + p.length ≤ t.length) :
    RkHit t p (computeHash p base mod) base mod q ↔ OccursAt t p q := by
  constructor
  · rintro ⟨h1, h2⟩
    exact ⟨hq, h2⟩
  · rintro ⟨h1, h2⟩
    refine ⟨?_, h2⟩
    have hw : rkWindow t p.length q = p := by
      apply List.ext_getElem
      · rw [rkWindow_length hq]
      · intro d h1' h2'
        have hd : d < p.length := h2'
        show ((t.drop q).take p.length)[d] = p[d]
        simp only [List.getElem_take, List.getElem_drop]
        have h3 := h2 d hd
        rw [at0_eq_getElem t (q + d) (by omega), at0_eq_getElem p d hd] at h3
        exact h3
    rw [hw]

/-- The Rabin-Karp MatchSet, with the pattern's own Horner hash, is the
brute-force MatchSet. -/
theorem rkSearch_matches (t p : List Nat) (base mod : Nat) (hmod : 0 < mod)
    (hm : 1 ≤ p.length) (hmn : p.length ≤ t.length) :
    (rabinKarpSearchWithSteps t p (computeHash p base mod) base mod).matchList
      = bruteForceMatches t p := by
  have inv := rkRun_inv t p (computeHash p base mod) base mod (computeH p.length base mod)
    hmod hm hmn (computeH_modEq p.length base mod) (t.length + 1 - p.length) (le_refl _)
  show (rkRun t p (computeHash p base mod) base mod (computeH p.length base mod)
    (t.length + 1 - p.length)).matchList = _
  rw [inv.hms]
  unfold bruteForceMatches
  have hn1 : t.length + 1 - p.length = t.length - p.length + 1 := by omega
  rw [hn1]
  apply List.filter_congr
  intro q hq
  rw [List.mem_range] at hq
  have hqn : q + p.length ≤ t.length := by omega
  exact decide_eq_decide.mpr ((rkHit_iff_occursAt hqn).trans (occursAt_iff_slice hm))

/-! ## Claim theorems -/

/-- C1: for every text and pattern satisfying the preconditions (both
non-empty, `|pattern| ≤ |text|`), the MatchSet returned by the exact-match
scanner (`kmpSearchWithSteps`, using the table from
`computeLPSWithSteps`) equals the MatchSet of a brute-force scan, i.e. the
set of all zero-based offsets where the pattern occurs in the text. -/
theorem C1_kmp_matches_bruteforce (t p : List Nat)
    (hm : 1 ≤ p.length) (hmn : p.length ≤ t.length) :
    (kmpSearchWithSteps t p (computeLPSWithSteps p).lpsArray).matchList
      = bruteForceMatches t p :=
  kmpSearch_matches t p hm hmn

theorem C1_witness :
    (kmpSearchWithSteps [97, 98, 97, 97] [97] (computeLPSWithSteps [97]).lpsArray).matchList
      = bruteForceMatches [97, 98, 97, 97] [97] :=
  C1_kmp_matches_bruteforce [97, 98, 97, 97] [97] (by decide) (by decide)

/-- C2: for every text and pattern satisfying the preconditions, and
every positive base and modulus, the MatchSet of the rolling-hash scanner
(`rabinKarpSearchWithSteps` with the hash from
`computePatternHashWithSteps`) equals the MatchSet of the exact-match
scanner on the same text and pattern. -/
theorem C2_rk_matches_kmp (t p : List Nat) (base mod : Nat)
    (hbase : 0 < base) (hmod : 0 < mod)
    (hm : 1 ≤ p.length) (hmn : p.length ≤ t.length) :
    (rabinKarpSearchWithSteps t p (computePatternHashWithSteps p base mod).hash
        base mod).matchList
      = (kmpSearchWithSteps t p (computeLPSWithSteps p).lpsArray).matchList := by
  rw [computePatternHash_hash, rkSearch_matches t p base mod hmod hm hmn,
    kmpSearch_matches t p hm hmn]

theorem C2_witness :
    (rabinKarpSearchWithSteps [97, 98, 97, 97] [97]
        (computePatternHashWithSteps [97] 256 101).hash 256 101).matchList
      = (kmpSearchWithSteps [97, 98, 97, 97] [97]
          (computeLPSWithSteps [97]).lpsArray).matchList :=
  C2_rk_matches_kmp [97, 98, 97, 97] [97] 256 101 (by decide) (by decide) (by decide) (by decide)

/-- C3: for every non-empty pattern the table from `computeLPSWithSteps`
satisfies `table[0] = 0`, `table[i] ≤ i` for every index, and `table[i]`
is the length of the longest proper prefix of `pattern[0..i]` that is
also a suffix of `pattern[0..i]`. -/
theorem C3_lps_table_correct (p : List Nat) (hm : 1 ≤ p.length) :
    at0 (computeLPSWithSteps p).lpsArray 0 = 0 ∧
    ∀ i, i < p.length →
      at0 (computeLPSWithSteps p).lpsArray i ≤ i ∧
      IsBorderTD (p.take (i + 1)) (at0 (computeLPSWithSteps p).lpsArray i) ∧
      ∀ k, IsBorderTD (p.take (i + 1)) k → k ≤ at0 (computeLPSWithSteps p).lpsArray i := by
  obtain ⟨hlen, hval⟩ := computeLPS_correct p hm
  constructor
  · rw [hval 0 (by omega)]
    exact lpsSpec_zero p
  · intro i hi
    rw [hval i hi]
    refine ⟨lpsSpec_le p i, ?_, ?_⟩
    · rw [isBorderTD_iff_borderAt p (i + 1) _ (by omega)]
      exact lpsSpec_isBorder p i
    · intro k hk
      rw [isBorderTD_iff_borderAt p (i + 1) k (by omega)] at hk
      exact lpsSpec_greatest hk

theorem C3_witness :
    at0 (computeLPSWithSteps [97, 98, 97]).lpsArray 0 = 0 ∧
    ∀ i, i < [97, 98, 97].length →
      at0 (computeLPSWithSteps [97, 98, 97]).lpsArray i ≤ i ∧
      IsBorderTD ([97, 98, 97].take (i + 1))
        (at0 (computeLPSWithSteps [97, 98, 97]).lpsArray i) ∧
      ∀ k, IsBorderTD ([97, 98, 97].take (i + 1)) k →
        k ≤ at0 (computeLPSWithSteps [97, 98, 97]).lpsArray i :=
  C3_lps_table_correct [97, 98, 97] (by decide)

/-- C4: in the rolling-hash scanner, for every window after the first the
hash produced by the O(1) rolling update equals the hash of that window
computed from scratch by Horner's scheme with the same base and modulus,
and lies in `[0, modulus)`: a `rolling_hash` step with the from-scratch
old and new window hashes is emitted for every shift, and every emitted
`rolling_hash` step carries the from-scratch hash of its new window,
normalized into `[0, modulus)`. -/
theorem C4_rolling_update_correct (t p : List Nat) (ph base mod : Nat)
    (hbase : 0 < base) (hmod : 0 < mod)
    (hm : 1 ≤ p.length) (hmn : p.length ≤ t.length) :
    (∀ w, 1 ≤ w → w ≤ t.length - p.length →
      RkStep.rolling_hash (w - 1) w (at0 t (w - 1)) (at0 t (w - 1 + p.length))
        ((computeHash (rkWindow t p.length (w - 1)) base mod : Nat) : Int)
        ((computeHash (rkWindow t p.length w) base mod : Nat) : Int)
        (computeH p.length base mod)
        ∈ (rabinKarpSearchWithSteps t p ph base mod).matchingSteps) ∧
    (∀ ows nws rc ac oh nh hv,
      RkStep.rolling_hash ows nws rc ac oh nh hv
          ∈ (rabinKarpSearchWithSteps t p ph base mod).matchingSteps →
      nws = ows + 1 ∧
        nh = ((computeHash (rkWindow t p.length nws) base mod : Nat) : Int) ∧
        0 ≤ nh ∧ nh < (mod : Int)) := by
  have inv := rkRun_inv t p ph base mod (computeH p.length base mod)
    hmod hm hmn (computeH_modEq p.length base mod) (t.length + 1 - p.length) (le_refl _)
  have hmin : min (t.length + 1 - p.length) (t.length - p.length) = t.length - p.length :=
    Nat.min_eq_right (by omega)
  constructor
  · intro w hw1 hw2
    have hmem := inv.hrolls w hw1 (by rw [hmin]; exact hw2)
    show _ ∈ (rkRun t p ph base mod (computeH p.length base mod)
        (t.length + 1 - p.length)).steps ++ [RkStep.search_complete _ _ _ _]
    exact List.mem_append_left _ hmem
  · intro ows nws rc ac oh nh hv hmem
    have hmem' : RkStep.rolling_hash ows nws rc ac oh nh hv
        ∈ (rkRun t p ph base mod (computeH p.length base mod)
            (t.length + 1 - p.length)).steps ++ [RkStep.search_complete _ _ _ _] := hmem
    rcases List.mem_append.mp hmem' with hold | hnew
    · obtain ⟨h1, h2, h3⟩ := inv.hrollv ows nws rc ac oh nh hv hold
      refine ⟨h1, h3, ?_, ?_⟩
      · rw [h3]
        exact Int.natCast_nonneg _
      · rw [h3, computeHash_eq_polyVal]
        exact_mod_cast Nat.mod_lt _ hmod
    · exact absurd (List.mem_singleton.mp hnew) (by simp)

theorem C4_witness :
    0 < 256 ∧ 0 < 101 ∧
    ((∀ w, 1 ≤ w → w ≤ [5, 6, 7].length - [6].length →
      RkStep.rolling_hash (w - 1) w (at0 [5, 6, 7] (w - 1)) (at0 [5, 6, 7] (w - 1 + [6].length))
        ((computeHash (rkWindow [5, 6, 7] [6].length (w - 1)) 256 101 : Nat) : Int)
        ((computeHash (rkWindow [5, 6, 7] [6].length w) 256 101 : Nat) : Int)
        (computeH [6].length 256 101)
        ∈ (rabinKarpSearchWithSteps [5, 6, 7] [6] 6 256 101).matchingSteps) ∧
    (∀ ows nws rc ac oh nh hv,
      RkStep.rolling_hash ows nws rc ac oh nh hv
          ∈ (rabinKarpSearchWithSteps [5, 6, 7] [6] 6 256 101).matchingSteps →
      nws = ows + 1 ∧
        nh = ((computeHash (rkWindow [5, 6, 7] [6].length nws) 256 101 : Nat) : Int) ∧
        0 ≤ nh ∧ nh < ((101 : Nat) : Int))) :=
  ⟨by decide, by decide,
    C4_rolling_update_correct [5, 6, 7] [6] 6 256 101 (by decide) (by decide)
      (by decide) (by decide)⟩

/-- C5: any window offset whose hash (the loop hash, equal to the
from-scratch window hash) coincides with the supplied pattern hash while
the window differs from the pattern produces a `spurious_hit` step for
that offset and is not recorded in the final MatchSet. -/
theorem C5_spurious_hit (t p : List Nat) (ph base mod q : Nat)
    (hmod : 0 < mod) (hm : 1 ≤ p.length) (hmn : p.length ≤ t.length)
    (hq : q + p.length ≤ t.length)
    (hcol : ph = computeHash (rkWindow t p.length q) base mod)
    (hdiff : ¬ ∀ d, d < p.length → at0 t (q + d) = at0 p d) :
    HasSpurious (rabinKarpSearchWithSteps t p ph base mod).matchingSteps q ∧
      q ∉ (rabinKarpSearchWithSteps t p ph base mod).matchList := by
  have inv := rkRun_inv t p ph base mod (computeH p.length base mod)
    hmod hm hmn (computeH_modEq p.length base mod) (t.length + 1 - p.length) (le_refl _)
  have hqK : q < t.length + 1 - p.length := by omega
  constructor
  · have hs := inv.hspur q hqK hcol hdiff
    apply hasSpurious_mono q _ hs
    intro x hx
    show x ∈ (rkRun t p ph base mod (computeH p.length base mod)
        (t.length + 1 - p.length)).steps ++ [RkStep.search_complete _ _ _ _]
    exact List.mem_append_left _ hx
  · intro hmem
    have hmem' : q ∈ (rkRun t p ph base mod (computeH p.length base mod)
        (t.length + 1 - p.length)).matchList := hmem
    rw [inv.hms] at hmem'
    have := List.of_mem_filter hmem'
    have hhit : RkHit t p ph base mod q := of_decide_eq_true this
    exact hdiff hhit.2

theorem C5_witness :
    HasSpurious (rabinKarpSearchWithSteps [1, 4] [1] 1 256 3).matchingSteps 1 ∧
      1 ∉ (rabinKarpSearchWithSteps [1, 4] [1] 1 256 3).matchList :=
  C5_spurious_hit [1, 4] [1] 1 256 3 1 (by decide) (by decide) (by decide) (by decide)
    (by decide) (by decide)

/-- C6 counterexample: `computeLPSWithSteps` on the empty pattern does not
fail; it returns an (empty) table and emits init and complete steps. -/
theorem C6_counterexample :
    computeLPSWithSteps ([] : List Nat)
      = ⟨[], [LpsStep.lps_init [] 0 0 [], LpsStep.lps_complete [] []]⟩ := rfl

/-- C6 (amended): the empty-pattern `InvalidInput` rejection happens in
`kmpAlgorithm`, which throws before invoking the builder; the builder
itself returns an empty table with bracket steps. -/
theorem C6_empty_pattern_rejection (t : List Nat) :
    kmpAlgorithm t [] = Except.error "Both text and pattern are required" ∧
      (computeLPSWithSteps ([] : List Nat)).lpsArray = [] := by
  constructor
  · unfold kmpAlgorithm
    simp
  · rfl

/-- C7 counterexample: `rabinKarpAlgorithm` (and with it the hasher)
accepts a non-positive base without any `InvalidInput` failure. -/
theorem C7_counterexample :
    (rabinKarpAlgorithm [97, 98] [97] 0 5).toOption.isSome = true := by
  rfl

/-- C7 (amended): neither the hasher nor `rabinKarpAlgorithm` validates
`base`/`modulus` (non-positive values are accepted and a result is
returned); when both are positive the returned hash equals
`Σ code(pattern[k]) · base^(m-1-k) mod modulus`. -/
theorem C7_hash_is_polynomial (p : List Nat) (base mod : Nat)
    (hbase : 0 < base) (hmod : 0 < mod) :
    (computePatternHashWithSteps p base mod).hash = polyHash p base mod := by
  rw [computePatternHash_hash, computeHash_eq_polyVal]
  unfold polyHash
  rw [polyVal_eq_sum]

theorem C7_witness :
    0 < 256 ∧ 0 < 101 ∧
      (computePatternHashWithSteps [71, 69, 69, 75] 256 101).hash
        = polyHash [71, 69, 69, 75] 256 101 :=
  ⟨by decide, by decide, C7_hash_is_polynomial [71, 69, 69, 75] 256 101 (by decide) (by decide)⟩

/-- C8: the scanner's text index `i` never decreases: neither a single
loop iteration (`kmpBody`) nor any number of them (`kmpLoop`) can move it
backwards; on a mismatch with `j ≠ 0` only the pattern index is reset. -/
theorem C8_text_index_monotone (t p lps : List Nat) (s : KmpState) (fuel : Nat) :
    s.i ≤ (kmpBody t p lps s).i ∧ s.i ≤ (kmpLoop t p lps fuel s).i := by
  have hbody : ∀ s' : KmpState, s'.i ≤ (kmpBody t p lps s').i := by
    intro s'
    simp only [kmpBody]
    split_ifs
    · show s'.i ≤ s'.i + 1
      omega
    · show s'.i ≤ s'.i + 1
      omega
    · show s'.i ≤ s'.i
      omega
    · show s'.i ≤ s'.i + 1
      omega
  refine ⟨hbody s, ?_⟩
  induction fuel generalizing s with
  | zero => simp [kmpLoop]
  | succ fuel ih =>
    simp only [kmpLoop]
    split_ifs with h
    · exact le_trans (hbody s) (ih _)
    · exact le_refl _

/-- C9: both top-level algorithms are deterministic pure functions: two
invocations on identical inputs return identical result objects. -/
theorem C9_deterministic (t t' p p' : List Nat) (b b' q q' : Nat)
    (ht : t = t') (hp : p = p') (hb : b = b') (hq : q = q') :
    kmpAlgorithm t p = kmpAlgorithm t' p' ∧
      rabinKarpAlgorithm t p b q = rabinKarpAlgorithm t' p' b' q' := by
  subst ht hp hb hq
  exact ⟨rfl, rfl⟩

theorem C9_witness :
    kmpAlgorithm [97] [97] = kmpAlgorithm [97] [97] ∧
      rabinKarpAlgorithm [97] [97] 256 101 = rabinKarpAlgorithm [97] [97] 256 101 :=
  C9_deterministic [97] [97] [97] [97] 256 256 101 101 rfl rfl rfl rfl

/-- C10: both instrumented loops terminate on every input: with the fuel
the embedding supplies (`2·|pattern|` for the builder, `2·|text| + 1` for
the scanner with the builder's table) each loop reaches its exit
condition, so no fuel is ever exhausted. -/
theorem C10_loops_terminate (p t : List Nat) :
    p.length ≤ (lpsLoop p (2 * p.length) (lpsInit p)).i ∧
      t.length ≤ (kmpLoop t p (computeLPSWithSteps p).lpsArray
        (2 * t.length + 1) kmpInit).i := by
  constructor
  · rcases Nat.eq_zero_or_pos p.length with hm | hm
    · rw [hm]
      exact Nat.zero_le _
    · exact (lpsLoop_final p hm).2
  · apply kmpLoop_exit (computeLPS_le p)
    left
    show 2 * (t.length - 0) + 0 < 2 * t.length + 1
    omega

end StringMatch
